import Mathlib

/-!
Verification of the b-bots delivery-routing core.

This file gives a shallow embedding, in Lean 4, of the route-planning core of
the b-bots repository: the campus location graph (`map.py`), the Dijkstra
shortest-path engine (`pathfinding.py`) and the greedy pickup/delivery route
optimizer together with its route annotator (`app/delivery.py`).

Modelling conventions:
* Python `dict`s are modelled as association lists (`List (key × value)`) with
  insert-or-overwrite (`alInsert`) and first-match lookup (`alLookup`); this
  matches dict semantics because dict keys are unique, and insertion order is
  preserved the way CPython preserves it (overwrite in place, append new keys).
* Python numbers (edge weights, coordinates, timestamps) are modelled as
  integers `ℤ` — every numeric literal the repository feeds these functions is
  an integer — and `float('inf')` is the `⊤` of `WithTop ℤ`.  The claims under
  study are about algorithmic structure, not floating-point rounding.
* `while` loops are modelled as fuel-indexed recursive functions; the fuel used
  at each call site dominates the number of iterations the Python loop can
  perform on that input, and running out of fuel returns the same value as the
  corresponding Python loop exit.
* `raise ValueError(...)` is modelled with `Except String`; a raising method
  that mutates state before raising returns the mutated state alongside the
  error, which is what the Python object ends up holding.
-/

namespace BBots

/-! ### Association lists (Python dict model) -/

/-- First-match lookup in an association list (`d[k]` / `k in d`). -/
def alLookup {α : Type} (k : String) : List (String × α) → Option α
  | [] => none
  | (k', v) :: rest => if k' = k then some v else alLookup k rest

/-- Insert-or-overwrite (`d[k] = v`): replaces in place, appends new keys. -/
def alInsert {α : Type} (k : String) (v : α) : List (String × α) → List (String × α)
  | [] => [(k, v)]
  | (k', v') :: rest => if k' = k then (k, v) :: rest else (k', v') :: alInsert k v rest

@[simp] theorem alLookup_nil {α : Type} (k : String) : alLookup (α := α) k [] = none := rfl

theorem alLookup_cons {α : Type} (k k' : String) (v : α) (l : List (String × α)) :
    alLookup k ((k', v) :: l) = if k' = k then some v else alLookup k l := rfl

@[simp] theorem alLookup_insert_self {α : Type} (k : String) (v : α) (l : List (String × α)) :
    alLookup k (alInsert k v l) = some v := by
  induction l with
  | nil => simp [alInsert, alLookup]
  | cons hd tl ih =>
    obtain ⟨k', v'⟩ := hd
    by_cases h : k' = k
    · subst h
      simp [alInsert, alLookup]
    · simp [alInsert, alLookup, h, ih]

theorem alLookup_insert_ne {α : Type} {k k' : String} (h : k' ≠ k) (v : α)
    (l : List (String × α)) : alLookup k' (alInsert k v l) = alLookup k' l := by
  induction l with
  | nil => simp [alInsert, alLookup, Ne.symm h]
  | cons hd tl ih =>
    obtain ⟨k₀, v₀⟩ := hd
    by_cases h0 : k₀ = k
    · subst h0
      simp [alInsert, alLookup, Ne.symm h]
    · simp only [alInsert, h0, if_false]
      by_cases h1 : k₀ = k'
      · simp [alLookup, h1]
      · simp [alLookup, h1, ih]

theorem alLookup_insert {α : Type} (k k' : String) (v : α) (l : List (String × α)) :
    alLookup k' (alInsert k v l) = if k = k' then some v else alLookup k' l := by
  by_cases h : k = k'
  · subst h; simp
  · rw [alLookup_insert_ne (Ne.symm h), if_neg h]

/-- A successful lookup exhibits a member of the list. -/
theorem alLookup_mem {α : Type} {k : String} {v : α} :
    ∀ {l : List (String × α)}, alLookup k l = some v → (k, v) ∈ l := by
  intro l
  induction l with
  | nil => intro h; simp [alLookup] at h
  | cons hd tl ih =>
    obtain ⟨k', v'⟩ := hd
    intro h
    rw [alLookup_cons] at h
    by_cases hk : k' = k
    · rw [if_pos hk] at h
      injection h with hv
      subst hk
      subst hv
      exact List.mem_cons_self _ _
    · rw [if_neg hk] at h
      exact List.mem_cons_of_mem _ (ih h)

/-- Membership gives a successful lookup (of some value). -/
theorem alLookup_isSome_of_mem {α : Type} {k : String} {v : α} :
    ∀ {l : List (String × α)}, (k, v) ∈ l → (alLookup k l).isSome = true := by
  intro l
  induction l with
  | nil => intro h; simp at h
  | cons hd tl ih =>
    obtain ⟨k', v'⟩ := hd
    intro h
    rw [alLookup_cons]
    by_cases hk : k' = k
    · simp [hk]
    · rw [if_neg hk]
      rcases List.mem_cons.mp h with h | h
      · exact absurd (congrArg Prod.fst h).symm hk
      · exact ih h

/-- With unique keys, membership determines the looked-up value. -/
theorem alLookup_eq_of_mem_of_nodup {α : Type} {k : String} {v : α} :
    ∀ {l : List (String × α)}, (l.map Prod.fst).Nodup → (k, v) ∈ l →
      alLookup k l = some v := by
  intro l
  induction l with
  | nil => intro _ h; simp at h
  | cons hd tl ih =>
    obtain ⟨k', v'⟩ := hd
    intro hnd h
    simp only [List.map_cons, List.nodup_cons] at hnd
    rw [alLookup_cons]
    rcases List.mem_cons.mp h with h | h
    · obtain ⟨h1, h2⟩ := Prod.mk.injEq .. ▸ h
      simp [h1.symm, h2]
    · by_cases hk : k' = k
      · exact absurd (hk ▸ List.mem_map_of_mem Prod.fst h) hnd.1
      · rw [if_neg hk]
        exact ih hnd.2 h

/-- The keys of an insert: unchanged on overwrite, appended for a new key. -/
theorem alInsert_map_fst {α : Type} (k : String) (v : α) :
    ∀ l : List (String × α), (alInsert k v l).map Prod.fst =
      if k ∈ l.map Prod.fst then l.map Prod.fst else l.map Prod.fst ++ [k] := by
  intro l
  induction l with
  | nil => simp [alInsert]
  | cons hd tl ih =>
    obtain ⟨k', v'⟩ := hd
    by_cases h : k' = k
    · subst h
      simp [alInsert]
    · simp only [alInsert, h, if_false, List.map_cons, ih, List.mem_cons]
      have hne : ¬ k = k' := fun hh => h hh.symm
      by_cases hmem : k ∈ tl.map Prod.fst
      · simp [hmem, hne]
      · simp [hmem, hne]

theorem alInsert_map_fst_nodup {α : Type} {k : String} {v : α} {l : List (String × α)}
    (hnd : (l.map Prod.fst).Nodup) : ((alInsert k v l).map Prod.fst).Nodup := by
  rw [alInsert_map_fst]
  by_cases hmem : k ∈ l.map Prod.fst
  · simpa [hmem] using hnd
  · rw [if_neg hmem]
    rw [List.nodup_append]
    refine ⟨hnd, List.nodup_singleton _, ?_⟩
    intro a ha hb
    rw [List.mem_singleton] at hb
    subst hb
    exact hmem ha

/-! ### `map.py`: `Location` and `CampusMap` -/

/-- `map.Location` (dataclass). -/
structure Location where
  name : String
  building_code : String
  coordinates : ℤ × ℤ
  description : String := ""
  is_delivery_point : Bool := true
deriving DecidableEq

/-- `map.CampusMap`: `locations` is the name-keyed dict of `Location`s and
`graph` the adjacency dict-of-dicts with edge distances. -/
structure CampusMap where
  locations : List (String × Location)
  graph : List (String × List (String × ℤ))
deriving DecidableEq

/-- The state of a freshly constructed, still unpopulated map (both dicts
empty); `CampusMap.__init__` populates it through `add_location` /
`add_connection` calls. -/
def emptyCampus : CampusMap := ⟨[], []⟩

/-- The `if key not in self.graph: self.graph[key] = {}` pattern. -/
def ensureKey (key : String) (g : List (String × List (String × ℤ))) :
    List (String × List (String × ℤ)) :=
  if (alLookup key g).isSome then g else alInsert key [] g

/-- `CampusMap.add_location`. -/
def add_location (m : CampusMap) (name code : String) (coordinates : ℤ × ℤ)
    (description : String := "") (is_delivery_point : Bool := true) : CampusMap :=
  { locations := alInsert name ⟨name, code, coordinates, description, is_delivery_point⟩
      m.locations
    graph := ensureKey name m.graph }

/-- The graph after `add_connection`'s two `if ... not in self.graph` guards. -/
def connGraph2 (g : List (String × List (String × ℤ))) (loc1 loc2 : String) :
    List (String × List (String × ℤ)) :=
  ensureKey loc2 (ensureKey loc1 g)

/-- The graph after `self.graph[loc1][loc2] = distance`. -/
def connGraph3 (g : List (String × List (String × ℤ))) (loc1 loc2 : String) (distance : ℤ) :
    List (String × List (String × ℤ)) :=
  alInsert loc1 (alInsert loc2 distance ((alLookup loc1 (connGraph2 g loc1 loc2)).getD []))
    (connGraph2 g loc1 loc2)

/-- The graph after `self.graph[loc2][loc1] = distance`; this second write reads
`graph[loc2]` from the state produced by the first write, matching the aliasing
of the two mutable dicts in Python when `loc1 == loc2`. -/
def connGraph4 (g : List (String × List (String × ℤ))) (loc1 loc2 : String) (distance : ℤ) :
    List (String × List (String × ℤ)) :=
  alInsert loc2 (alInsert loc1 distance ((alLookup loc2 (connGraph3 g loc1 loc2 distance)).getD []))
    (connGraph3 g loc1 loc2 distance)

/-- `CampusMap.add_connection`: raises `ValueError` when either endpoint is not
a known location; otherwise writes the distance in both directions. -/
def add_connection (m : CampusMap) (loc1 loc2 : String) (distance : ℤ) :
    Except String CampusMap :=
  if (alLookup loc1 m.locations).isNone ∨ (alLookup loc2 m.locations).isNone then
    .error ("Location(s) not found: " ++ loc1 ++ ", " ++ loc2)
  else
    .ok { m with graph := connGraph4 m.graph loc1 loc2 distance }

/-- `CampusMap.get_neighbors`: the adjacency dict of a location, empty for
unknown locations. -/
def get_neighbors (m : CampusMap) (location : String) : List (String × ℤ) :=
  (alLookup location m.graph).getD []

/-- `CampusMap.get_distance`: the direct edge weight, `None` if absent. -/
def get_distance (m : CampusMap) (loc1 loc2 : String) : Option ℤ :=
  match alLookup loc1 m.graph with
  | some adj => alLookup loc2 adj
  | none => none

theorem get_distance_eq_lookup_neighbors (m : CampusMap) (loc1 loc2 : String) :
    get_distance m loc1 loc2 = alLookup loc2 (get_neighbors m loc1) := by
  unfold get_distance get_neighbors
  cases alLookup loc1 m.graph <;> simp [Option.getD]

/-! #### The effect of `add_connection` on `get_distance` -/

/-- Looking up an ensured key yields its previous adjacency, defaulted empty. -/
theorem lookup_ensure_self (g : List (String × List (String × ℤ))) (x : String) :
    alLookup x (ensureKey x g) = some ((alLookup x g).getD []) := by
  unfold ensureKey
  cases hg : alLookup x g with
  | none => simp [hg]
  | some adj => simp [hg]

/-- Ensuring a key leaves every other key's adjacency unchanged. -/
theorem lookup_ensure_other {x y : String} (h : y ≠ x)
    (g : List (String × List (String × ℤ))) :
    alLookup y (ensureKey x g) = alLookup y g := by
  unfold ensureKey
  cases hg : alLookup x g with
  | none => simp [hg, alLookup_insert_ne h]
  | some adj => simp [hg]

/-- `get_distance` through the defaulted adjacency of the first endpoint. -/
theorem get_distance_eq_getD (m : CampusMap) (a b : String) :
    get_distance m a b = alLookup b ((alLookup a m.graph).getD []) := by
  unfold get_distance
  cases alLookup a m.graph <;> simp

theorem lookup_connGraph2_fst (g : List (String × List (String × ℤ))) (loc1 loc2 : String) :
    alLookup loc1 (connGraph2 g loc1 loc2) = some ((alLookup loc1 g).getD []) := by
  unfold connGraph2
  by_cases h12 : loc1 = loc2
  · rw [← h12, lookup_ensure_self, lookup_ensure_self, Option.getD_some]
  · rw [lookup_ensure_other h12, lookup_ensure_self]

/-- After a successful `add_connection loc1 loc2 d`, the direct distance between
the two endpoints (in both orders) is `d`, and every other pair is unchanged. -/
theorem get_distance_add_connection {m m' : CampusMap} {loc1 loc2 : String} {d : ℤ}
    (h : add_connection m loc1 loc2 d = .ok m') (a b : String) :
    get_distance m' a b =
      if (a = loc1 ∧ b = loc2) ∨ (a = loc2 ∧ b = loc1) then some d
      else get_distance m a b := by
  unfold add_connection at h
  by_cases hv : (alLookup loc1 m.locations).isNone ∨ (alLookup loc2 m.locations).isNone
  · rw [if_pos hv] at h
    exact Except.noConfusion h
  · rw [if_neg hv] at h
    simp only [Except.ok.injEq] at h
    subst h
    rw [get_distance_eq_getD, get_distance_eq_getD]
    show alLookup b ((alLookup a (connGraph4 m.graph loc1 loc2 d)).getD []) = _
    by_cases ha2 : a = loc2
    · subst ha2
      unfold connGraph4
      rw [alLookup_insert_self, Option.getD_some]
      by_cases hb1 : b = loc1
      · subst hb1
        rw [alLookup_insert_self, if_pos (Or.inr ⟨rfl, rfl⟩)]
      · rw [alLookup_insert_ne hb1]
        by_cases h21 : a = loc1
        · -- loc1 = loc2 = a: the second write reads the adjacency written first.
          subst h21
          unfold connGraph3
          rw [alLookup_insert_self, Option.getD_some, alLookup_insert_ne hb1,
            lookup_connGraph2_fst, Option.getD_some,
            if_neg (by rintro (⟨_, hc⟩ | ⟨_, hc⟩) <;> exact hb1 hc)]
        · -- loc1 ≠ loc2 = a: graph[loc2] read by the second write is the old
          -- adjacency of loc2 (possibly freshly created empty).
          unfold connGraph3
          rw [alLookup_insert_ne h21]
          unfold connGraph2
          rw [lookup_ensure_self, Option.getD_some, lookup_ensure_other h21,
            if_neg (by rintro (⟨hc, _⟩ | ⟨_, hc⟩) <;> first
              | exact h21 hc
              | exact hb1 hc)]
    · unfold connGraph4
      rw [alLookup_insert_ne ha2]
      by_cases ha1 : a = loc1
      · subst ha1
        unfold connGraph3
        rw [alLookup_insert_self, Option.getD_some, lookup_connGraph2_fst, Option.getD_some]
        by_cases hb2 : b = loc2
        · subst hb2
          rw [alLookup_insert_self, if_pos (Or.inl ⟨rfl, rfl⟩)]
        · rw [alLookup_insert_ne hb2,
            if_neg (by rintro (⟨_, hc⟩ | ⟨hc, _⟩) <;> first
              | exact hb2 hc
              | exact ha2 hc)]
      · unfold connGraph3
        rw [alLookup_insert_ne ha1]
        unfold connGraph2
        rw [lookup_ensure_other ha2, lookup_ensure_other ha1,
          if_neg (by rintro (⟨hc, _⟩ | ⟨hc, _⟩) <;> first
            | exact ha1 hc
            | exact ha2 hc)]

/-! #### Graph states reachable through the `CampusMap` mutators -/

/-- Map states reachable from a fresh (unpopulated) map through any sequence of
`add_location` / successful `add_connection` calls; `CampusMap.__init__`
produces such a state (it populates the campus through exactly these calls). -/
inductive Built : CampusMap → Prop
  | empty : Built emptyCampus
  | add_loc {m : CampusMap} (name code : String) (coordinates : ℤ × ℤ)
      (description : String) (is_delivery_point : Bool) : Built m →
      Built (add_location m name code coordinates description is_delivery_point)
  | add_conn {m m' : CampusMap} (loc1 loc2 : String) (distance : ℤ) : Built m →
      add_connection m loc1 loc2 distance = .ok m' → Built m'

/-- Edge symmetry is preserved by `add_location`. -/
theorem symm_add_location {m : CampusMap}
    (hm : ∀ a b, get_distance m a b = get_distance m b a)
    (name code : String) (coordinates : ℤ × ℤ) (description : String)
    (is_delivery_point : Bool) (a b : String) :
    get_distance (add_location m name code coordinates description is_delivery_point) a b =
      get_distance (add_location m name code coordinates description is_delivery_point) b a := by
  have hgd : ∀ x y : String,
      get_distance (add_location m name code coordinates description is_delivery_point) x y =
        if x = name ∧ ¬ (alLookup name m.graph).isSome then none else get_distance m x y := by
    intro x y
    rw [get_distance_eq_getD, get_distance_eq_getD]
    show alLookup y ((alLookup x (ensureKey name m.graph)).getD []) = _
    by_cases hk : (alLookup name m.graph).isSome
    · simp only [ensureKey, hk, if_true]
      simp [hk]
    · by_cases hx : x = name
      · subst hx
        rw [lookup_ensure_self]
        have hnone : alLookup x m.graph = none := by
          cases hc : alLookup x m.graph
          · rfl
          · exact absurd (by rw [hc]; rfl) hk
        rw [hnone]
        simp [hk]
      · rw [lookup_ensure_other hx]
        simp [hx]
  rw [hgd a b, hgd b a]
  by_cases ha : a = name ∧ ¬ (alLookup name m.graph).isSome
  · rw [if_pos ha]
    by_cases hb : b = name ∧ ¬ (alLookup name m.graph).isSome
    · rw [if_pos hb]
    · rw [if_neg hb, ← hm a b]
      have hnone : alLookup a m.graph = none := by
        rw [ha.1]
        cases hc : alLookup name m.graph
        · rfl
        · exact absurd (by rw [hc]; rfl) ha.2
      symm
      rw [get_distance_eq_getD, hnone]
      rfl
  · rw [if_neg ha]
    by_cases hb : b = name ∧ ¬ (alLookup name m.graph).isSome
    · rw [if_pos hb, hm a b]
      have hnone : alLookup b m.graph = none := by
        rw [hb.1]
        cases hc : alLookup name m.graph
        · rfl
        · exact absurd (by rw [hc]; rfl) hb.2
      rw [get_distance_eq_getD, hnone]
      rfl
    · rw [if_neg hb]
      exact hm a b

/-- Edge symmetry is preserved by a successful `add_connection`. -/
theorem symm_add_connection {m m' : CampusMap} {loc1 loc2 : String} {d : ℤ}
    (hm : ∀ a b, get_distance m a b = get_distance m b a)
    (h : add_connection m loc1 loc2 d = .ok m') (a b : String) :
    get_distance m' a b = get_distance m' b a := by
  rw [get_distance_add_connection h a b, get_distance_add_connection h b a]
  by_cases hc : (a = loc1 ∧ b = loc2) ∨ (a = loc2 ∧ b = loc1)
  · rw [if_pos hc, if_pos (by tauto)]
  · rw [if_neg hc, if_neg (by tauto)]
    exact hm a b

/--
C8.  Edge symmetry is an invariant preserved by every graph operation: in any
map state reachable by `add_location` / `add_connection` calls, the direct
distance is the same in both directions (both present with equal weight, or
both absent).
-/
theorem claim8_edge_symmetry {m : CampusMap} (h : Built m) (a b : String) :
    get_distance m a b = get_distance m b a := by
  induction h generalizing a b with
  | empty => rfl
  | add_loc name code coordinates description is_delivery_point _ ih =>
    exact symm_add_location (fun x y => ih x y) name code coordinates description
      is_delivery_point a b
  | add_conn loc1 loc2 distance _ hok ih =>
    exact symm_add_connection (fun x y => ih x y) hok a b

/-! #### Concrete small maps used as witnesses -/

/-- A two-location map: `A` and `B`, not yet connected. -/
def campusW1 : CampusMap :=
  add_location (add_location emptyCampus "A" "CA" (0, 0) "" true) "B" "CB" (1, 0) "" true

/-- `campusW1` with the edge `A – B = 5` added. -/
def campusW2 : CampusMap := (add_connection campusW1 "A" "B" 5).toOption.getD campusW1

/-- Witness for C8: a concrete reachable map state on which the symmetry
theorem applies, with both directions evaluating to weight `5`. -/
theorem claim8_edge_symmetry_witness :
    get_distance campusW2 "A" "B" = get_distance campusW2 "B" "A" ∧
      get_distance campusW2 "A" "B" = some 5 := by
  constructor
  · exact claim8_edge_symmetry
      (Built.add_conn "A" "B" 5
        (Built.add_loc "B" "CB" (1, 0) "" true
          (Built.add_loc "A" "CA" (0, 0) "" true Built.empty))
        (by rfl)) "A" "B"
  · decide

/--
C6 counterexample.  The claim says `add_connection` fails when the weight is
not a finite positive number; the code performs no weight validation at all:
adding an edge with weight `-5` between two known locations succeeds.
-/
theorem claim6_counterexample :
    ¬ (0 : ℤ) < -5 ∧ (add_connection campusW1 "A" "B" (-5)).isOk = true := by
  constructor
  · decide
  · decide

/--
C6 (amended).  `add_connection(a, b, weight)` fails exactly when either
endpoint is absent from the graph's location registry; the weight is not
validated.  On success it writes both directions of the edge with the same
stored weight.
-/
theorem claim6_add_connection_contract (m : CampusMap) (a b : String) (w : ℤ) :
    ((add_connection m a b w).isOk = true ↔
      (alLookup a m.locations).isSome = true ∧ (alLookup b m.locations).isSome = true) ∧
    ∀ m2, add_connection m a b w = .ok m2 →
      get_distance m2 a b = some w ∧ get_distance m2 b a = some w := by
  constructor
  · unfold add_connection
    cases ha : alLookup a m.locations <;> cases hb : alLookup b m.locations <;>
      simp [Except.isOk, Except.toBool]
  · intro m2 h
    constructor
    · rw [get_distance_add_connection h a b, if_pos (Or.inl ⟨rfl, rfl⟩)]
    · rw [get_distance_add_connection h b a, if_pos (Or.inr ⟨rfl, rfl⟩)]

/-- Witness for C6 (amended): on the concrete two-location map, adding
`A – B = 5` succeeds and stores weight `5` in both directions. -/
theorem claim6_add_connection_contract_witness :
    get_distance campusW2 "A" "B" = some 5 ∧ get_distance campusW2 "B" "A" = some 5 :=
  (claim6_add_connection_contract campusW1 "A" "B" 5).2 campusW2 (by rfl)

/-! ### `pathfinding.py`: `Pathfinder.find_shortest_path`

The Python priority queue is `heapq` over `(float, str)` tuples, i.e. a
min-queue under lexicographic comparison: first the cumulative distance, then
the location name (Python compares strings lexicographically by code point).
We model it as a list kept sorted under that order; entries with equal keys are
interchangeable, so this gives the same pop sequence as the binary heap. -/

/-- Lexicographic comparison of code-point sequences (Python `str` order). -/
def charListLe : List Char → List Char → Bool
  | [], _ => true
  | _ :: _, [] => false
  | a :: as, b :: bs =>
    if a.toNat < b.toNat then true
    else if b.toNat < a.toNat then false
    else charListLe as bs

/-- Python string `<=`. -/
def strLeB (a b : String) : Bool := charListLe a.data b.data

theorem charListLe_refl : ∀ l : List Char, charListLe l l = true := by
  intro l
  induction l with
  | nil => rfl
  | cons a as ih => simp [charListLe, ih]

theorem charListLe_total : ∀ a b : List Char,
    charListLe a b = true ∨ charListLe b a = true := by
  intro a
  induction a with
  | nil => intro b; left; rfl
  | cons x as ih =>
    intro b
    cases b with
    | nil => right; rfl
    | cons y bs =>
      by_cases hxy : x.toNat < y.toNat
      · left; simp [charListLe, hxy]
      · by_cases hyx : y.toNat < x.toNat
        · right; simp [charListLe, hyx]
        · rcases ih bs with h | h
          · left; simp [charListLe, hxy, hyx, h]
          · right; simp [charListLe, hxy, hyx, h]

theorem charListLe_trans : ∀ a b c : List Char,
    charListLe a b = true → charListLe b c = true → charListLe a c = true := by
  intro a
  induction a with
  | nil => intro b c _ _; rfl
  | cons x as ih =>
    intro b c hab hbc
    cases b with
    | nil => simp [charListLe] at hab
    | cons y bs =>
      cases c with
      | nil => simp [charListLe] at hbc
      | cons z cs =>
        simp only [charListLe] at hab hbc ⊢
        by_cases hyx : y.toNat < x.toNat
        · simp [hyx, if_neg (by omega : ¬ x.toNat < y.toNat)] at hab
        · by_cases hzy : z.toNat < y.toNat
          · simp [hzy, if_neg (by omega : ¬ y.toNat < z.toNat)] at hbc
          · by_cases hxz : x.toNat < z.toNat
            · simp [hxz]
            · have hzx : ¬ z.toNat < x.toNat := by
                by_cases hxy : x.toNat < y.toNat <;> omega
              have hxy : ¬ x.toNat < y.toNat := by omega
              have hyz : ¬ y.toNat < z.toNat := by omega
              simp only [hxy, if_false, hyx, if_false] at hab
              simp only [hyz, if_false, hzy, if_false] at hbc
              simp [hxz, hzx, ih bs cs hab hbc]

/-- The `heapq` ordering on `(cumulative distance, location name)` entries. -/
def pqLE (x y : ℤ × String) : Prop :=
  x.1 < y.1 ∨ (x.1 = y.1 ∧ strLeB x.2 y.2 = true)

instance (x y : ℤ × String) : Decidable (pqLE x y) := by
  unfold pqLE
  infer_instance

theorem pqLE_refl (x : ℤ × String) : pqLE x x :=
  Or.inr ⟨rfl, charListLe_refl _⟩

theorem pqLE_total {x y : ℤ × String} (h : ¬ pqLE x y) : pqLE y x := by
  unfold pqLE at h ⊢
  push_neg at h
  rcases lt_trichotomy x.1 y.1 with hlt | heq | hgt
  · exact absurd hlt (not_lt.mpr h.1)
  · rcases charListLe_total x.2.data y.2.data with hs | hs
    · exact absurd hs (h.2 heq)
    · exact Or.inr ⟨heq.symm, hs⟩
  · exact Or.inl hgt

theorem pqLE_trans {x y z : ℤ × String} (h1 : pqLE x y) (h2 : pqLE y z) : pqLE x z := by
  unfold pqLE at h1 h2 ⊢
  rcases h1 with h1 | ⟨h1e, h1s⟩
  · rcases h2 with h2 | ⟨h2e, _⟩
    · exact Or.inl (lt_trans h1 h2)
    · exact Or.inl (h2e ▸ h1)
  · rcases h2 with h2 | ⟨h2e, h2s⟩
    · exact Or.inl (h1e ▸ h2)
    · exact Or.inr ⟨h1e.trans h2e, charListLe_trans _ _ _ h1s h2s⟩

/-- `heapq.heappush`: ordered insertion into the sorted queue. -/
def pqInsert (x : ℤ × String) : List (ℤ × String) → List (ℤ × String)
  | [] => [x]
  | y :: rest => if pqLE x y then x :: y :: rest else y :: pqInsert x rest

theorem mem_pqInsert {x a : ℤ × String} :
    ∀ {l : List (ℤ × String)}, a ∈ pqInsert x l ↔ a = x ∨ a ∈ l := by
  intro l
  induction l with
  | nil => simp [pqInsert]
  | cons y rest ih =>
    unfold pqInsert
    by_cases h : pqLE x y
    · simp only [if_pos h, List.mem_cons]
    · simp only [if_neg h, List.mem_cons, ih]
      tauto

theorem self_mem_pqInsert (x : ℤ × String) (l : List (ℤ × String)) :
    x ∈ pqInsert x l := mem_pqInsert.mpr (Or.inl rfl)

theorem pqInsert_sorted {x : ℤ × String} :
    ∀ {l : List (ℤ × String)}, l.Sorted pqLE → (pqInsert x l).Sorted pqLE := by
  intro l
  induction l with
  | nil => intro _; simp [pqInsert]
  | cons y rest ih =>
    intro hs
    rw [List.sorted_cons] at hs
    unfold pqInsert
    by_cases h : pqLE x y
    · rw [if_pos h, List.sorted_cons]
      refine ⟨?_, List.sorted_cons.mpr hs⟩
      intro b hb
      rcases List.mem_cons.mp hb with hb | hb
      · exact hb ▸ h
      · exact pqLE_trans h (hs.1 b hb)
    · rw [if_neg h, List.sorted_cons]
      refine ⟨?_, ih hs.2⟩
      intro b hb
      rcases mem_pqInsert.mp hb with hb | hb
      · exact hb ▸ pqLE_total h
      · exact hs.1 b hb

/-- Path reconstruction: follow `previous` links from a node (the Python
`while node is not None` loop, before the final `path.reverse()`).  The fuel
dominates the chain length; a missing key cannot occur on chains the
algorithm builds. -/
def reconstructRev (prev : List (String × Option String)) : ℕ → String → List String
  | 0, _ => []
  | fuel + 1, node =>
    match alLookup node prev with
    | some (some parent) => node :: reconstructRev prev fuel parent
    | _ => [node]

/-- The neighbor-relaxation loop body of Dijkstra (`for neighbor, edge_dist in
neighbors.items()`), threading `(distances, previous, pq)`. `cur` is the popped
`(current_dist, current)` entry and `visited` already contains `current`. -/
def relaxAll (cur : ℤ × String) (visited : List String) :
    List (String × ℤ) → List (String × ℤ) → List (String × Option String) →
      List (ℤ × String) →
      List (String × ℤ) × List (String × Option String) × List (ℤ × String)
  | [], dist, prev, pq => (dist, prev, pq)
  | (x, w) :: ns, dist, prev, pq =>
    if x ∈ visited then relaxAll cur visited ns dist prev pq
    else
      match alLookup x dist with
      | none => relaxAll cur visited ns (alInsert x (cur.1 + w) dist)
          (alInsert x (some cur.2) prev) (pqInsert (cur.1 + w, x) pq)
      | some dx =>
        if cur.1 + w < dx then
          relaxAll cur visited ns (alInsert x (cur.1 + w) dist)
            (alInsert x (some cur.2) prev) (pqInsert (cur.1 + w, x) pq)
        else relaxAll cur visited ns dist prev pq

/-- The main Dijkstra `while pq:` loop.  Running out of fuel returns the same
"no path" value as an exhausted queue; every call site supplies fuel exceeding
the number of pops the queue can ever serve. -/
def dijkstraLoop (m : CampusMap) (endL : String) :
    ℕ → List (String × ℤ) → List (String × Option String) → List String →
      List (ℤ × String) → List String × WithTop ℤ
  | 0, _, _, _, _ => ([], ⊤)
  | _ + 1, _, _, _, [] => ([], ⊤)
  | fuel + 1, dist, prev, visited, (d, current) :: pq =>
    if current ∈ visited then dijkstraLoop m endL fuel dist prev visited pq
    else if current = endL then
      ((reconstructRev prev (prev.length + 1) endL).reverse, (d : WithTop ℤ))
    else
      let st := relaxAll (d, current) (current :: visited) (get_neighbors m current)
        dist prev pq
      dijkstraLoop m endL fuel st.1 st.2.1 (current :: visited) st.2.2

/-- Total number of adjacency entries: each node is popped-and-expanded at most
once, and each expansion pushes at most one entry per adjacency entry, so
`totalAdjSize m + 2` fuel covers every pop the queue can ever serve. -/
def totalAdjSize (m : CampusMap) : ℕ := (m.graph.map (fun ent => ent.2.length)).sum

/-- `Pathfinder.find_shortest_path`: unknown endpoint and exhausted queue give
`([], +inf)`; equal known endpoints give `([start], 0)` without search. -/
def find_shortest_path (m : CampusMap) (start endL : String) : List String × WithTop ℤ :=
  if alLookup start m.locations = none ∨ alLookup endL m.locations = none then ([], ⊤)
  else if start = endL then ([start], (0 : WithTop ℤ))
  else dijkstraLoop m endL (totalAdjSize m + 2) [(start, 0)] [(start, none)] [] [(0, start)]

/-! #### Paths in a `CampusMap` graph -/

/-- `isPathB m p s e`: `p` is a nonempty walk from `s` to `e` whose consecutive
nodes are joined by direct edges of `m`. -/
def isPathB (m : CampusMap) : List String → String → String → Bool
  | [], _, _ => false
  | [x], s, e => x == s && x == e
  | a :: b :: rest, s, e => a == s && (get_distance m a b).isSome && isPathB m (b :: rest) b e

def IsPath (m : CampusMap) (p : List String) (s e : String) : Prop := isPathB m p s e = true

/-- Two locations are connected when some walk joins them. -/
def Connected (m : CampusMap) (s e : String) : Prop := ∃ p, IsPath m p s e

/-- Total weight of a walk; a missing edge contributes `+inf`. -/
def pathWeight (m : CampusMap) : List String → WithTop ℤ
  | [] => 0
  | [_] => 0
  | a :: b :: rest =>
    (match get_distance m a b with
      | some w => (w : WithTop ℤ)
      | none => (⊤ : WithTop ℤ)) + pathWeight m (b :: rest)

/-- All stored edge weights are nonnegative (the spec's data model requires
positive weights; nonnegativity is what Dijkstra's optimality needs). -/
def NonnegWeights (m : CampusMap) : Prop := ∀ ent ∈ m.graph, ∀ pr ∈ ent.2, 0 ≤ pr.2

/-- Representation invariant of the Python dict-of-dicts: outer and inner key
lists are duplicate-free. -/
def WFMap (m : CampusMap) : Prop :=
  (m.graph.map Prod.fst).Nodup ∧ ∀ ent ∈ m.graph, (ent.2.map Prod.fst).Nodup

/-! #### Concrete scenario graph (spec §8, concrete scenario 1) -/

/-- Add a connection, keeping the map unchanged on error. -/
def addConnD (m : CampusMap) (a b : String) (d : ℤ) : CampusMap :=
  (add_connection m a b d).toOption.getD m

/-- Triangle graph `A–B = 10`, `B–C = 5`, `A–C = 20`. -/
def campusS : CampusMap :=
  addConnD (addConnD (addConnD
    (add_location (add_location (add_location emptyCampus "A" "CA" (0, 0) "" true)
      "B" "CB" (1, 0) "" true) "C" "CC" (2, 0) "" true)
    "A" "B" 10) "B" "C" 5) "A" "C" 20

/-! #### C4: `find_shortest_path(s, s)` -/

/--
C4 counterexample.  The claim says `findShortestPath(s, s) = ([s], 0)` for
every name `s`, including names not present in the graph; but the code checks
graph membership before the `start == end` shortcut, so an unknown name yields
`([], +inf)`, not `([s], 0)`.
-/
theorem claim4_counterexample :
    find_shortest_path emptyCampus "X" "X" = ([], ⊤) ∧
      find_shortest_path emptyCampus "X" "X" ≠ (["X"], (0 : WithTop ℤ)) := by
  constructor
  · decide
  · decide

/--
C4 (amended).  For a location name `s` that is present in the graph,
`findShortestPath(s, s)` returns `([s], 0)` without running a search; for a
name not present it returns `([], +inf)` (the unknown-endpoint check precedes
the `start == end` shortcut).
-/
theorem claim4_same_start_end (m : CampusMap) (s : String) :
    ((alLookup s m.locations).isSome = true → find_shortest_path m s s = ([s], 0)) ∧
    (alLookup s m.locations = none → find_shortest_path m s s = ([], ⊤)) := by
  constructor
  · intro h
    have hne : ¬ (alLookup s m.locations = none ∨ alLookup s m.locations = none) := by
      rintro (hc | hc) <;> simp [hc] at h
    unfold find_shortest_path
    rw [if_neg hne, if_pos rfl]
  · intro h
    unfold find_shortest_path
    rw [if_pos (Or.inl h)]

/-- Witness for C4 (amended), at a known and at an unknown location. -/
theorem claim4_same_start_end_witness :
    find_shortest_path campusW1 "A" "A" = (["A"], 0) ∧
      find_shortest_path campusW1 "X" "X" = ([], ⊤) :=
  ⟨(claim4_same_start_end campusW1 "A").1 (by decide),
   (claim4_same_start_end campusW1 "X").2 (by decide)⟩

/-! #### C5: the "no path" outcome -/

theorem dijkstraLoop_fuel_zero (m : CampusMap) (endL : String) (dist : List (String × ℤ))
    (prev : List (String × Option String)) (visited : List String)
    (pq : List (ℤ × String)) : dijkstraLoop m endL 0 dist prev visited pq = ([], ⊤) := rfl

theorem dijkstraLoop_pq_nil (m : CampusMap) (endL : String) (fuel : ℕ)
    (dist : List (String × ℤ)) (prev : List (String × Option String))
    (visited : List String) :
    dijkstraLoop m endL (fuel + 1) dist prev visited [] = ([], ⊤) := rfl

theorem dijkstraLoop_cons (m : CampusMap) (endL : String) (fuel : ℕ)
    (dist : List (String × ℤ)) (prev : List (String × Option String))
    (visited : List String) (d : ℤ) (current : String) (pq : List (ℤ × String)) :
    dijkstraLoop m endL (fuel + 1) dist prev visited ((d, current) :: pq) =
      if current ∈ visited then dijkstraLoop m endL fuel dist prev visited pq
      else if current = endL then
        ((reconstructRev prev (prev.length + 1) endL).reverse, (d : WithTop ℤ))
      else
        dijkstraLoop m endL fuel
          (relaxAll (d, current) (current :: visited) (get_neighbors m current)
            dist prev pq).1
          (relaxAll (d, current) (current :: visited) (get_neighbors m current)
            dist prev pq).2.1
          (current :: visited)
          (relaxAll (d, current) (current :: visited) (get_neighbors m current)
            dist prev pq).2.2 := rfl

theorem relaxAll_nil (cur : ℤ × String) (visited : List String)
    (dist : List (String × ℤ)) (prev : List (String × Option String))
    (pq : List (ℤ × String)) : relaxAll cur visited [] dist prev pq = (dist, prev, pq) := rfl

theorem relaxAll_cons (cur : ℤ × String) (visited : List String) (x : String) (w : ℤ)
    (ns : List (String × ℤ)) (dist : List (String × ℤ))
    (prev : List (String × Option String)) (pq : List (ℤ × String)) :
    relaxAll cur visited ((x, w) :: ns) dist prev pq =
      if x ∈ visited then relaxAll cur visited ns dist prev pq
      else
        match alLookup x dist with
        | none => relaxAll cur visited ns (alInsert x (cur.1 + w) dist)
            (alInsert x (some cur.2) prev) (pqInsert (cur.1 + w, x) pq)
        | some dx =>
          if cur.1 + w < dx then
            relaxAll cur visited ns (alInsert x (cur.1 + w) dist)
              (alInsert x (some cur.2) prev) (pqInsert (cur.1 + w, x) pq)
          else relaxAll cur visited ns dist prev pq := rfl

/-- Every entry of the queue produced by `relaxAll` is either an old entry or a
fresh `(new_dist, neighbor)` push for some neighbor in the processed list. -/
theorem relaxAll_pq_mem (cur : ℤ × String) (visited : List String) :
    ∀ (ns : List (String × ℤ)) (dist : List (String × ℤ))
      (prev : List (String × Option String)) (pq : List (ℤ × String))
      (ent : ℤ × String), ent ∈ (relaxAll cur visited ns dist prev pq).2.2 →
      ent ∈ pq ∨ ∃ w, (ent.2, w) ∈ ns := by
  intro ns
  induction ns with
  | nil => intro dist prev pq ent h; exact Or.inl h
  | cons hd ns ih =>
    obtain ⟨x, w⟩ := hd
    intro dist prev pq ent h
    rw [relaxAll_cons] at h
    have hup : ∀ (h' : ent ∈ (relaxAll cur visited ns (alInsert x (cur.1 + w) dist)
        (alInsert x (some cur.2) prev) (pqInsert (cur.1 + w, x) pq)).2.2),
        ent ∈ pq ∨ ∃ w', (ent.2, w') ∈ (x, w) :: ns := by
      intro h'
      rcases ih _ _ _ _ h' with h' | ⟨w', h'⟩
      · rcases mem_pqInsert.mp h' with h' | h'
        · exact Or.inr ⟨w, by rw [h']; exact List.mem_cons_self _ _⟩
        · exact Or.inl h'
      · exact Or.inr ⟨w', List.mem_cons_of_mem _ h'⟩
    have hkeep : ∀ (h' : ent ∈ (relaxAll cur visited ns dist prev pq).2.2),
        ent ∈ pq ∨ ∃ w', (ent.2, w') ∈ (x, w) :: ns := by
      intro h'
      rcases ih _ _ _ _ h' with h' | ⟨w', h'⟩
      · exact Or.inl h'
      · exact Or.inr ⟨w', List.mem_cons_of_mem _ h'⟩
    split at h
    · exact hkeep h
    · split at h
      · exact hup h
      · split at h
        · exact hup h
        · exact hkeep h

/-- Appending a present edge to a walk extends it by one node. -/
theorem isPath_append_edge {m : CampusMap} {x : String} :
    ∀ {p : List String} {s u : String}, IsPath m p s u →
      (get_distance m u x).isSome = true → IsPath m (p ++ [x]) s x := by
  intro p
  induction p with
  | nil => intro s u hp _; exact absurd hp (by simp [IsPath, isPathB])
  | cons a rest ih =>
    intro s u hp he
    cases rest with
    | nil =>
      simp only [IsPath, isPathB, Bool.and_eq_true, beq_iff_eq] at hp
      obtain ⟨h1, h2⟩ := hp
      subst h1
      subst h2
      simp [IsPath, isPathB, he]
    | cons b rest' =>
      simp only [IsPath, isPathB, Bool.and_eq_true, beq_iff_eq] at hp
      obtain ⟨⟨h1, h2⟩, h3⟩ := hp
      subst h1
      have := ih (s := b) (u := u) h3 he
      simp only [IsPath, isPathB, List.cons_append, Bool.and_eq_true, beq_iff_eq] at this ⊢
      exact ⟨⟨trivial, h2⟩, this⟩

/-- A connected node stays connected through a present edge. -/
theorem Connected.extend {m : CampusMap} {s u x : String} (h : Connected m s u)
    (he : (get_distance m u x).isSome = true) : Connected m s x := by
  obtain ⟨p, hp⟩ := h
  exact ⟨p ++ [x], isPath_append_edge hp he⟩

/-- Queue invariant: as long as every queued node is connected to `start`, a
non-`([], +inf)` outcome of the Dijkstra loop implies `endL` is connected. -/
theorem dijkstraLoop_connected (m : CampusMap) (s endL : String) :
    ∀ (fuel : ℕ) (dist : List (String × ℤ)) (prev : List (String × Option String))
      (visited : List String) (pq : List (ℤ × String)),
      (∀ ent ∈ pq, Connected m s ent.2) →
      dijkstraLoop m endL fuel dist prev visited pq ≠ ([], ⊤) →
      Connected m s endL := by
  intro fuel
  induction fuel with
  | zero =>
    intro dist prev visited pq _ hne
    exact absurd (dijkstraLoop_fuel_zero m endL dist prev visited pq) hne
  | succ fuel ih =>
    intro dist prev visited pq hpq hne
    cases pq with
    | nil => exact absurd (dijkstraLoop_pq_nil m endL fuel dist prev visited) hne
    | cons hd rest =>
      obtain ⟨d, current⟩ := hd
      rw [dijkstraLoop_cons] at hne
      by_cases hv : current ∈ visited
      · rw [if_pos hv] at hne
        exact ih dist prev visited rest
          (fun ent hent => hpq ent (List.mem_cons_of_mem _ hent)) hne
      · rw [if_neg hv] at hne
        by_cases hend : current = endL
        · exact hend ▸ hpq (d, current) (List.mem_cons_self _ _)
        · rw [if_neg hend] at hne
          refine ih _ _ _ _ ?_ hne
          intro ent hent
          rcases relaxAll_pq_mem _ _ _ _ _ _ _ hent with h | ⟨w, h⟩
          · exact hpq ent (List.mem_cons_of_mem _ h)
          · refine (hpq (d, current) (List.mem_cons_self _ _)).extend ?_
            rw [get_distance_eq_lookup_neighbors]
            exact alLookup_isSome_of_mem h

/--
C5.  If either endpoint is unknown to the graph, `findShortestPath` returns
`([], +inf)`; and the "no path" outcome is exactly that value: whenever the
result is not `([], +inf)`, the two endpoints are in fact connected by a walk
(equivalently, disconnected endpoints always produce `([], +inf)`).  The
function is total — no exception is involved.
-/
theorem claim5_no_path_contract (m : CampusMap) (s e : String) :
    ((alLookup s m.locations = none ∨ alLookup e m.locations = none) →
      find_shortest_path m s e = ([], ⊤)) ∧
    (find_shortest_path m s e ≠ ([], ⊤) → Connected m s e) := by
  constructor
  · intro h
    unfold find_shortest_path
    rw [if_pos h]
  · intro h
    unfold find_shortest_path at h
    by_cases hv : alLookup s m.locations = none ∨ alLookup e m.locations = none
    · rw [if_pos hv] at h
      exact absurd rfl h
    · rw [if_neg hv] at h
      by_cases hse : s = e
      · exact ⟨[s], by simp [IsPath, isPathB, hse]⟩
      · rw [if_neg hse] at h
        refine dijkstraLoop_connected m s e _ _ _ _ _ ?_ h
        intro ent hent
        rw [List.mem_singleton] at hent
        subst hent
        exact ⟨[s], by simp [IsPath, isPathB]⟩

/-- Witness for C5: an unknown endpoint gives `([], +inf)`; a reachable pair
gives a non-`([], +inf)` result, hence connectivity. -/
theorem claim5_no_path_contract_witness :
    find_shortest_path campusS "X" "B" = ([], ⊤) ∧ Connected campusS "A" "B" :=
  ⟨(claim5_no_path_contract campusS "X" "B").1 (Or.inl (by decide)),
   (claim5_no_path_contract campusS "A" "B").2 (by decide)⟩

/-! ### `app/delivery.py`: orders and the delivery system -/

/-- `OrderStatus` enumeration. -/
inductive OrderStatus where
  | pending
  | in_progress
  | completed
  | cancelled
deriving DecidableEq

/-- `Order` dataclass.  Timestamps are integers supplied by the caller (the
Python `datetime.now()` values, which the core only stores). -/
structure Order where
  order_id : String
  customer_name : String
  pickup_location : String
  delivery_location : String
  items : List String
  status : OrderStatus := .pending
  created_at : ℤ := 0
  completed_at : Option ℤ := none
  priority : ℤ := 0
deriving DecidableEq

/-- The mutable state of `DeliverySystem` (the map and pathfinder are passed
explicitly to the operations). -/
structure DeliverySystem where
  orders : List (String × Order) := []
  current_route : List String := []
  current_location : String := ""
  order_counter : ℕ := 0
deriving DecidableEq

/-! #### Order-id strings (`f"ORD-{counter:04d}"`) -/

/-- A decimal digit character. -/
def digitChar (d : ℕ) : Char :=
  match d with
  | 0 => '0' | 1 => '1' | 2 => '2' | 3 => '3' | 4 => '4'
  | 5 => '5' | 6 => '6' | 7 => '7' | 8 => '8' | _ => '9'

/-- Decimal digits of `n`, most significant first (fuel = `n` suffices). -/
def natDigitsAux : ℕ → ℕ → List Char
  | 0, n => [digitChar n]
  | fuel + 1, n =>
    if n < 10 then [digitChar n]
    else natDigitsAux fuel (n / 10) ++ [digitChar (n % 10)]

def natDigits (n : ℕ) : List Char := natDigitsAux n n

/-- Python `"%04d" % n`: left-pad the decimal digits with zeros to width 4. -/
def pad4 (n : ℕ) : String :=
  String.mk (List.replicate (4 - (natDigits n).length) '0' ++ natDigits n)

/-- The order id assigned for counter value `n`. -/
def orderIdString (n : ℕ) : String := "ORD-" ++ pad4 n

/-! #### Registry operations -/

/-- `DeliverySystem.create_order`: the counter is incremented *before* the
location validation, so a failing call still consumes an id value; the mutated
state is returned alongside the raised error. -/
def create_order (s : DeliverySystem) (m : CampusMap) (customer_name : String)
    (pickup_location delivery_location : String) (items : List String)
    (priority : ℤ) (now : ℤ) : DeliverySystem × Except String String :=
  let counter := s.order_counter + 1
  let order_id := orderIdString counter
  if alLookup pickup_location m.locations = none then
    ({ s with order_counter := counter },
      .error ("Invalid pickup location: " ++ pickup_location))
  else if alLookup delivery_location m.locations = none then
    ({ s with order_counter := counter },
      .error ("Invalid delivery location: " ++ delivery_location))
  else
    ({ s with order_counter := counter
              orders := alInsert order_id
                ⟨order_id, customer_name, pickup_location, delivery_location, items,
                  .pending, now, none, priority⟩ s.orders },
      .ok order_id)

/-- `DeliverySystem.get_order`. -/
def get_order (s : DeliverySystem) (order_id : String) : Option Order :=
  alLookup order_id s.orders

/-- `DeliverySystem.complete_order`: unconditionally sets `COMPLETED` and
stamps `completed_at` for a known id; no-op for an unknown id. -/
def complete_order (s : DeliverySystem) (order_id : String) (now : ℤ) : DeliverySystem :=
  match alLookup order_id s.orders with
  | none => s
  | some o =>
    let o' := { o with status := OrderStatus.completed, completed_at := some now }
    { s with orders := alInsert order_id o' s.orders }

/-- `DeliverySystem.cancel_order`: unconditionally sets `CANCELLED` for a known
id (whatever the current status, `completed_at` untouched); no-op otherwise. -/
def cancel_order (s : DeliverySystem) (order_id : String) : DeliverySystem :=
  match alLookup order_id s.orders with
  | none => s
  | some o =>
    let o' := { o with status := OrderStatus.cancelled }
    { s with orders := alInsert order_id o' s.orders }

/-! #### `DeliverySystem.optimize_route` -/

inductive ActionType where
  | pickup
  | deliver
deriving DecidableEq

/-- The running "best next action" of the candidate scan (`best_next`,
`best_distance`, `best_path`, `action_type`, `best_order_id`); absent while no
candidate has beaten the initial `float('inf')`. -/
structure Cand where
  target : String
  dist : WithTop ℤ
  path : List String
  action : ActionType
  oid : String
deriving DecidableEq

/-- The `for order_id in remaining_order_ids:` candidate scan.  A pending
pickup proposes the order's pickup location, an already-picked-up order its
delivery location; a candidate replaces the incumbent only when its cost is
strictly smaller (so a `+inf` cost can never be selected). -/
def chooseLoop (m : CampusMap) (order_dict : List (String × Order))
    (picked : List String) (current : String) :
    List String → Option Cand → Option Cand
  | [], best => best
  | oid :: rest, best =>
    match alLookup oid order_dict with
    | none => chooseLoop m order_dict picked current rest best
    | some o =>
      let target := if oid ∈ picked then o.delivery_location else o.pickup_location
      let act : ActionType := if oid ∈ picked then .deliver else .pickup
      let r := find_shortest_path m current target
      let bd : WithTop ℤ := match best with | none => ⊤ | some c => c.dist
      if r.2 < bd then
        chooseLoop m order_dict picked current rest (some ⟨target, r.2, r.1, act, oid⟩)
      else
        chooseLoop m order_dict picked current rest best

/-- Appending the winning sub-path to the accumulated route: drop its first
node (it duplicates `current`); a single-node sub-path is appended only when it
is not `current` itself. -/
def extendPath (current : String) (path subpath : List String) : List String :=
  if 1 < subpath.length then path ++ subpath.drop 1
  else match subpath with
    | [] => path
    | x :: _ => if x = current then path else path ++ [x]

/-- The `while remaining_order_ids:` loop.  The `Bool` in the result records
whether the loop exited through the `if best_next is None: break` guard
(`true`) or by draining `remaining` / the fuel (`false`); `optimize_route`
discards it.  Fuel `2 * |remaining| + 1` covers every iteration, since each
iteration either picks up a not-yet-picked order or removes one. -/
def optLoop (m : CampusMap) (order_dict : List (String × Order)) :
    ℕ → List String → List String → String → List String → WithTop ℤ →
      List String × WithTop ℤ × Bool
  | 0, _, _, _, path, total => (path, total, false)
  | _ + 1, [], _, _, path, total => (path, total, false)
  | fuel + 1, oid0 :: rem, picked, current, path, total =>
    match chooseLoop m order_dict picked current (oid0 :: rem) none with
    | none => (path, total, true)
    | some c =>
      match c.action with
      | .pickup => optLoop m order_dict fuel (oid0 :: rem) (c.oid :: picked) c.target
          (extendPath current path c.path) (total + c.dist)
      | .deliver => optLoop m order_dict fuel ((oid0 :: rem).erase c.oid) picked c.target
          (extendPath current path c.path) (total + c.dist)

/-- `optimize_route` with the early-termination guard made observable. -/
def optimizeRouteTraced (m : CampusMap) (start_location : String) (orders : List Order) :
    List String × WithTop ℤ × Bool :=
  if orders = [] then ([start_location], 0, false)
  else
    let order_dict := orders.foldl (fun d o => alInsert o.order_id o d) []
    let remaining := (orders.map (fun o => o.order_id)).dedup
    optLoop m order_dict (2 * remaining.length + 1) remaining [] start_location
      [start_location] 0

/-- `DeliverySystem.optimize_route`: the `(path, total_distance)` it returns. -/
def optimize_route (m : CampusMap) (start_location : String) (orders : List Order) :
    List String × WithTop ℤ :=
  ((optimizeRouteTraced m start_location orders).1,
    (optimizeRouteTraced m start_location orders).2.1)

/-! #### `DeliverySystem._build_route_info` -/

/-- The pickup scan at one stop (`for order in orders:` in list order): record
`"PICKUP: <id>"` for each order whose pickup location is this stop and whose id
is not yet picked up, threading the `picked_up` set. -/
def stopPickups (location : String) : List Order → List String → List String × List String
  | [], picked => ([], picked)
  | o :: os, picked =>
    if location = o.pickup_location ∧ o.order_id ∉ picked then
      let r := stopPickups location os (o.order_id :: picked)
      (("PICKUP: " ++ o.order_id) :: r.1, r.2)
    else stopPickups location os picked

/-- The delivery scan at one stop: record `"DELIVER: <id>"` for each order
whose delivery location is this stop, already picked up and not yet delivered,
threading the `delivered` set. -/
def stopDeliveries (location : String) (picked : List String) :
    List Order → List String → List String × List String
  | [], delivered => ([], delivered)
  | o :: os, delivered =>
    if location = o.delivery_location ∧ o.order_id ∈ picked ∧ o.order_id ∉ delivered then
      let r := stopDeliveries location picked os (o.order_id :: delivered)
      (("DELIVER: " ++ o.order_id) :: r.1, r.2)
    else stopDeliveries location picked os delivered

/-- The per-stop replay of `_build_route_info`, keeping every stop (also those
with no actions), in route order; the dict the Python builds is the fold of
this trace. -/
def routeTraceLoop (orders : List Order) :
    List String → List String → List String → List (String × List String)
  | [], _, _ => []
  | location :: rest, picked, delivered =>
    let pk := stopPickups location orders picked
    let dl := stopDeliveries location pk.2 orders delivered
    (location, pk.1 ++ dl.1) :: routeTraceLoop orders rest pk.2 dl.2

/-- The annotated replay of a route: stop-by-stop action lists. -/
def buildRouteTrace (route : List String) (orders : List Order) :
    List (String × List String) :=
  routeTraceLoop orders route [] []

/-- `DeliverySystem._build_route_info`: `route_info[location] = actions` for
each stop with at least one action — a later visit of the same location
overwrites the earlier entry, exactly as the Python dict assignment does. -/
def build_route_info (route : List String) (orders : List Order) :
    List (String × List String) :=
  (buildRouteTrace route orders).foldl
    (fun acc st => if st.2 = [] then acc else alInsert st.1 st.2 acc) []

/-- Index of the first stop of the trace whose action list contains `act`. -/
def actionIdx (act : String) : List (String × List String) → Option ℕ
  | [] => none
  | st :: rest =>
    if act ∈ st.2 then some 0 else (actionIdx act rest).map (· + 1)

/-! #### C7: `cancel_order` -/

/-- A concrete completed order. -/
def orderK : Order :=
  { order_id := "ORD-0001", customer_name := "k", pickup_location := "A",
    delivery_location := "B", items := ["i"], status := .completed,
    created_at := 0, completed_at := some 5, priority := 0 }

/-- A concrete pending order with no completion timestamp. -/
def orderP : Order :=
  { order_id := "ORD-0002", customer_name := "p", pickup_location := "A",
    delivery_location := "B", items := ["i"], status := .pending,
    created_at := 1, completed_at := none, priority := 0 }

/-- A registry holding the two orders above. -/
def sysK : DeliverySystem :=
  { orders := [("ORD-0001", orderK), ("ORD-0002", orderP)], order_counter := 2 }

/--
C7 counterexample.  The claim says a Completed order stays Completed under
`cancel_order` and that cancellation stamps the completion timestamp; the code
unconditionally sets `CANCELLED` (so the completed order flips to Cancelled)
and never touches `completed_at` (the pending order's stamp stays `None`).
-/
theorem claim7_counterexample :
    (get_order (cancel_order sysK "ORD-0001") "ORD-0001").map Order.status =
        some OrderStatus.cancelled ∧
      (get_order (cancel_order sysK "ORD-0001") "ORD-0001").map Order.status ≠
        some OrderStatus.completed ∧
      (get_order (cancel_order sysK "ORD-0002") "ORD-0002").map Order.completed_at =
        some none := by
  refine ⟨by decide, by decide, by decide⟩

/--
C7 (amended).  `cancel_order(id)` is a no-op when `id` is unknown; for a known
order it unconditionally overwrites the status with `Cancelled` — whatever the
current status, including `Completed` — and leaves every other field, in
particular the completion timestamp, unchanged.
-/
theorem claim7_cancel_order_contract (s : DeliverySystem) (oid : String) :
    (alLookup oid s.orders = none → cancel_order s oid = s) ∧
    (∀ o, alLookup oid s.orders = some o →
      get_order (cancel_order s oid) oid = some { o with status := OrderStatus.cancelled }) := by
  constructor
  · intro h
    unfold cancel_order
    rw [h]
  · intro o h
    unfold cancel_order get_order
    rw [h]
    simp [alLookup_insert_self]

/-- Witness for C7 (amended): an unknown id is a no-op; cancelling the
completed order yields the same record with status `Cancelled` (timestamp
still `some 5`). -/
theorem claim7_cancel_order_contract_witness :
    cancel_order sysK "ORD-9999" = sysK ∧
      get_order (cancel_order sysK "ORD-0001") "ORD-0001" =
        some { orderK with status := OrderStatus.cancelled } :=
  ⟨(claim7_cancel_order_contract sysK "ORD-9999").1 (by decide),
   (claim7_cancel_order_contract sysK "ORD-0001").2 orderK (by decide)⟩

/-! #### C10: id consumption by failing `create_order` -/

/-- Value of a digit string under the usual left fold. -/
def valAux : ℕ → List Char → ℕ
  | a, [] => a
  | a, c :: cs => valAux (10 * a + (c.toNat - 48)) cs

theorem digitChar_toNat {d : ℕ} (h : d < 10) : (digitChar d).toNat = 48 + d := by
  interval_cases d <;> decide

theorem valAux_cons (a : ℕ) (c : Char) (cs : List Char) :
    valAux a (c :: cs) = valAux (10 * a + (c.toNat - 48)) cs := rfl

theorem valAux_nil (a : ℕ) : valAux a [] = a := rfl

theorem valAux_append (a : ℕ) (xs ys : List Char) :
    valAux a (xs ++ ys) = valAux (valAux a xs) ys := by
  induction xs generalizing a with
  | nil => rfl
  | cons c cs ih => rw [List.cons_append, valAux_cons, valAux_cons, ih]

theorem valAux_natDigitsAux :
    ∀ (fuel n a : ℕ), n ≤ fuel →
      valAux a (natDigitsAux fuel n) = a * 10 ^ (natDigitsAux fuel n).length + n := by
  intro fuel
  induction fuel with
  | zero =>
    intro n a h
    interval_cases n
    rw [show natDigitsAux 0 0 = [digitChar 0] from rfl, valAux_cons, valAux_nil,
      digitChar_toNat (by omega), List.length_singleton, pow_one]
    omega
  | succ fuel ih =>
    intro n a h
    by_cases hn : n < 10
    · rw [show natDigitsAux (fuel + 1) n = [digitChar n] by rw [natDigitsAux, if_pos hn],
        valAux_cons, valAux_nil, digitChar_toNat hn, List.length_singleton, pow_one]
      omega
    · have hdiv : n / 10 ≤ fuel := by
        have h1 : n / 10 < n := Nat.div_lt_self (by omega) (by omega)
        omega
      have hmod : n % 10 < 10 := Nat.mod_lt _ (by omega)
      rw [show natDigitsAux (fuel + 1) n
          = natDigitsAux fuel (n / 10) ++ [digitChar (n % 10)] by
          rw [natDigitsAux, if_neg hn],
        valAux_append, ih _ a hdiv, valAux_cons, valAux_nil, digitChar_toNat hmod,
        List.length_append, List.length_singleton, pow_succ]
      have hrecomb : 10 * (n / 10) + n % 10 = n := Nat.div_add_mod n 10
      set L := (natDigitsAux fuel (n / 10)).length
      set X := (10 : ℕ) ^ L
      ring_nf
      omega

theorem valAux_natDigits (n : ℕ) : valAux 0 (natDigits n) = n := by
  have h := valAux_natDigitsAux n n 0 (le_refl n)
  rw [natDigits, h, Nat.zero_mul, Nat.zero_add]

theorem valAux_zero_replicate (k : ℕ) : valAux 0 (List.replicate k '0') = 0 := by
  induction k with
  | zero => rfl
  | succ k ih =>
    rw [List.replicate_succ, valAux_cons]
    have h0 : 10 * 0 + ('0'.toNat - 48) = 0 := by decide
    rw [h0]
    exact ih

/-- Numeric value carried by an order-id string (drop `"ORD-"`, read digits). -/
def idValue (s : String) : ℕ := valAux 0 (s.data.drop 4)

theorem idValue_orderIdString (n : ℕ) : idValue (orderIdString n) = n := by
  unfold idValue orderIdString pad4
  rw [String.data_append]
  show valAux 0 ((('O' :: 'R' :: 'D' :: '-' :: []) ++
    (List.replicate (4 - (natDigits n).length) '0' ++ natDigits n)).drop 4) = n
  rw [List.cons_append, List.cons_append, List.cons_append, List.cons_append,
    List.nil_append]
  simp only [List.drop_succ_cons, List.drop_zero]
  rw [valAux_append, valAux_zero_replicate]
  exact valAux_natDigits n

theorem orderIdString_injective {a b : ℕ} (h : orderIdString a = orderIdString b) :
    a = b := by
  have := congrArg idValue h
  rwa [idValue_orderIdString, idValue_orderIdString] at this

/-- A successful `create_order` returns the id of the incremented counter. -/
theorem create_order_ok_id (s : DeliverySystem) (m : CampusMap)
    (customer_name pickup_location delivery_location : String) (items : List String)
    (priority now : ℤ) (oid : String)
    (h : (create_order s m customer_name pickup_location delivery_location items
      priority now).2 = .ok oid) :
    oid = orderIdString (s.order_counter + 1) := by
  unfold create_order at h
  by_cases hp : alLookup pickup_location m.locations = none
  · rw [if_pos hp] at h
    exact Except.noConfusion h
  · rw [if_neg hp] at h
    by_cases hd : alLookup delivery_location m.locations = none
    · rw [if_pos hd] at h
      exact Except.noConfusion h
    · rw [if_neg hd] at h
      injection h with h
      exact h.symm

/--
C10.  When `create_order` is called with a pickup or delivery location that is
not in the graph, it raises and adds no order, but the id counter has already
been incremented; the consumed id value is never returned by any later
successful call (later calls run at a strictly larger counter, and ids are
strictly increasing in it, though not necessarily consecutive).
-/
theorem claim10_create_order_consumes_id (s : DeliverySystem) (m : CampusMap)
    (customer_name pickup_location delivery_location : String) (items : List String)
    (priority now : ℤ)
    (h : alLookup pickup_location m.locations = none ∨
      alLookup delivery_location m.locations = none) :
    (∃ msg, (create_order s m customer_name pickup_location delivery_location items
        priority now).2 = .error msg) ∧
    (create_order s m customer_name pickup_location delivery_location items
        priority now).1.orders = s.orders ∧
    (create_order s m customer_name pickup_location delivery_location items
        priority now).1.order_counter = s.order_counter + 1 ∧
    (∀ (s2 : DeliverySystem) (m2 : CampusMap) (c2 p2 d2 : String) (it2 : List String)
        (pr2 n2 : ℤ) (oid2 : String),
      s.order_counter < s2.order_counter →
      (create_order s2 m2 c2 p2 d2 it2 pr2 n2).2 = .ok oid2 →
      idValue oid2 = s2.order_counter + 1 ∧
        s.order_counter + 1 < idValue oid2 ∧
        oid2 ≠ orderIdString (s.order_counter + 1)) := by
  refine ⟨?_, ?_, ?_, ?_⟩
  · unfold create_order
    by_cases hp : alLookup pickup_location m.locations = none
    · rw [if_pos hp]
      exact ⟨_, rfl⟩
    · rw [if_neg hp]
      rcases h with h | h
      · exact absurd h hp
      · rw [if_pos h]
        exact ⟨_, rfl⟩
  · unfold create_order
    by_cases hp : alLookup pickup_location m.locations = none
    · rw [if_pos hp]
    · rw [if_neg hp]
      rcases h with h | h
      · exact absurd h hp
      · rw [if_pos h]
  · unfold create_order
    by_cases hp : alLookup pickup_location m.locations = none
    · rw [if_pos hp]
    · rw [if_neg hp]
      rcases h with h | h
      · exact absurd h hp
      · rw [if_pos h]
  · intro s2 m2 c2 p2 d2 it2 pr2 n2 oid2 hlt hok
    have hid := create_order_ok_id s2 m2 c2 p2 d2 it2 pr2 n2 oid2 hok
    subst hid
    refine ⟨idValue_orderIdString _, ?_, ?_⟩
    · rw [idValue_orderIdString]
      omega
    · intro hcontra
      have := orderIdString_injective hcontra
      omega

/-- Witness for C10: a failed creation (unknown pickup `"Z"`) from a fresh
registry consumes id 1; a later successful call at counter 5 returns
`ORD-0006`, which is not the consumed `ORD-0001`. -/
theorem claim10_create_order_consumes_id_witness :
    (create_order {} campusW1 "c" "Z" "A" ["i"] 0 0).1.orders = [] ∧
      (create_order {} campusW1 "c" "Z" "A" ["i"] 0 0).1.order_counter = 1 ∧
      "ORD-0006" ≠ orderIdString 1 := by
  have h := claim10_create_order_consumes_id {} campusW1 "c" "Z" "A" ["i"] 0 0
    (Or.inl (by decide))
  refine ⟨h.2.1, h.2.2.1, ?_⟩
  exact (h.2.2.2 { order_counter := 5 } campusW1 "c" "A" "B" ["i"] 0 0 "ORD-0006"
    (by decide) (by rfl)).2.2

/-! #### Equation lemmas for the optimizer loops -/

theorem chooseLoop_nil (m : CampusMap) (od : List (String × Order)) (picked : List String)
    (current : String) (best : Option Cand) :
    chooseLoop m od picked current [] best = best := rfl

theorem chooseLoop_cons (m : CampusMap) (od : List (String × Order))
    (picked : List String) (current oid : String) (rest : List String)
    (best : Option Cand) :
    chooseLoop m od picked current (oid :: rest) best =
      match alLookup oid od with
      | none => chooseLoop m od picked current rest best
      | some o =>
        let target := if oid ∈ picked then o.delivery_location else o.pickup_location
        let act : ActionType := if oid ∈ picked then ActionType.deliver
          else ActionType.pickup
        let r := find_shortest_path m current target
        let bd : WithTop ℤ := match best with | none => ⊤ | some c => c.dist
        if r.2 < bd then
          chooseLoop m od picked current rest (some ⟨target, r.2, r.1, act, oid⟩)
        else chooseLoop m od picked current rest best := rfl

theorem chooseLoop_cons_none (m : CampusMap) (od : List (String × Order))
    (picked : List String) (current oid : String) (rest : List String) (best : Option Cand)
    (h : alLookup oid od = none) :
    chooseLoop m od picked current (oid :: rest) best =
      chooseLoop m od picked current rest best := by
  rw [chooseLoop_cons, h]

theorem chooseLoop_cons_some (m : CampusMap) (od : List (String × Order))
    (picked : List String) (current oid : String) (rest : List String) (best : Option Cand)
    (o : Order) (h : alLookup oid od = some o) :
    chooseLoop m od picked current (oid :: rest) best =
      (if (find_shortest_path m current
            (if oid ∈ picked then o.delivery_location else o.pickup_location)).2 <
          (match best with | none => ⊤ | some c => c.dist) then
        chooseLoop m od picked current rest
          (some ⟨if oid ∈ picked then o.delivery_location else o.pickup_location,
            (find_shortest_path m current
              (if oid ∈ picked then o.delivery_location else o.pickup_location)).2,
            (find_shortest_path m current
              (if oid ∈ picked then o.delivery_location else o.pickup_location)).1,
            if oid ∈ picked then .deliver else .pickup, oid⟩)
      else chooseLoop m od picked current rest best) := by
  rw [chooseLoop_cons, h]

theorem optLoop_fuel_zero (m : CampusMap) (od : List (String × Order))
    (rem picked : List String) (current : String) (path : List String) (total : WithTop ℤ) :
    optLoop m od 0 rem picked current path total = (path, total, false) := rfl

theorem optLoop_rem_nil (m : CampusMap) (od : List (String × Order)) (fuel : ℕ)
    (picked : List String) (current : String) (path : List String) (total : WithTop ℤ) :
    optLoop m od (fuel + 1) [] picked current path total = (path, total, false) := rfl

theorem optLoop_cons (m : CampusMap) (od : List (String × Order)) (fuel : ℕ)
    (oid0 : String) (rem picked : List String) (current : String) (path : List String)
    (total : WithTop ℤ) :
    optLoop m od (fuel + 1) (oid0 :: rem) picked current path total =
      match chooseLoop m od picked current (oid0 :: rem) none with
      | none => (path, total, true)
      | some c =>
        match c.action with
        | .pickup => optLoop m od fuel (oid0 :: rem) (c.oid :: picked) c.target
            (extendPath current path c.path) (total + c.dist)
        | .deliver => optLoop m od fuel ((oid0 :: rem).erase c.oid) picked c.target
            (extendPath current path c.path) (total + c.dist) := rfl

theorem optLoop_guard (m : CampusMap) (od : List (String × Order)) (fuel : ℕ)
    (oid0 : String) (rem picked : List String) (current : String) (path : List String)
    (total : WithTop ℤ)
    (h : chooseLoop m od picked current (oid0 :: rem) none = none) :
    optLoop m od (fuel + 1) (oid0 :: rem) picked current path total =
      (path, total, true) := by
  rw [optLoop_cons, h]

theorem optLoop_step_pickup (m : CampusMap) (od : List (String × Order)) (fuel : ℕ)
    (oid0 : String) (rem picked : List String) (current : String) (path : List String)
    (total : WithTop ℤ) (c : Cand)
    (h : chooseLoop m od picked current (oid0 :: rem) none = some c)
    (ha : c.action = .pickup) :
    optLoop m od (fuel + 1) (oid0 :: rem) picked current path total =
      optLoop m od fuel (oid0 :: rem) (c.oid :: picked) c.target
        (extendPath current path c.path) (total + c.dist) := by
  rw [optLoop_cons, h]
  dsimp only
  rw [ha]

theorem optLoop_step_deliver (m : CampusMap) (od : List (String × Order)) (fuel : ℕ)
    (oid0 : String) (rem picked : List String) (current : String) (path : List String)
    (total : WithTop ℤ) (c : Cand)
    (h : chooseLoop m od picked current (oid0 :: rem) none = some c)
    (ha : c.action = .deliver) :
    optLoop m od (fuel + 1) (oid0 :: rem) picked current path total =
      optLoop m od fuel ((oid0 :: rem).erase c.oid) picked c.target
        (extendPath current path c.path) (total + c.dist) := by
  rw [optLoop_cons, h]
  dsimp only
  rw [ha]

/-! #### C9: the returned total distance is finite and the path starts at start -/

/-- A selected candidate always has finite cost: selection needs a strict
`<` against the incumbent (initially `+inf`), and `+inf < x` never holds. -/
theorem chooseLoop_some_dist_ne_top (m : CampusMap) (od : List (String × Order))
    (picked : List String) (current : String) :
    ∀ (ids : List String) (best : Option Cand),
      (∀ c, best = some c → c.dist ≠ ⊤) →
      ∀ c', chooseLoop m od picked current ids best = some c' → c'.dist ≠ ⊤ := by
  intro ids
  induction ids with
  | nil =>
    intro best hb c' h
    rw [chooseLoop_nil] at h
    exact hb c' h
  | cons oid rest ih =>
    intro best hb c' h
    cases hlk : alLookup oid od with
    | none =>
      rw [chooseLoop_cons_none _ _ _ _ _ _ _ hlk] at h
      exact ih best hb c' h
    | some o =>
      rw [chooseLoop_cons_some _ _ _ _ _ _ _ _ hlk] at h
      split at h <;> split at h <;>
        first
        | exact ih best hb c' h
        | (rename_i hlt
           refine ih _ ?_ c' h
           intro c hc
           injection hc with hc
           subst hc
           dsimp only
           intro htop
           rw [htop] at hlt
           exact absurd hlt not_top_lt)

theorem extendPath_ne_nil_head (current : String) (path subpath : List String)
    (h : path ≠ []) :
    extendPath current path subpath ≠ [] ∧
      (extendPath current path subpath).head? = path.head? := by
  obtain ⟨p0, prest, rfl⟩ : ∃ p0 prest, path = p0 :: prest := by
    cases path with
    | nil => exact absurd rfl h
    | cons a b => exact ⟨a, b, rfl⟩
  unfold extendPath
  by_cases hlen : 1 < subpath.length
  · rw [if_pos hlen]
    exact ⟨by simp, by rw [List.cons_append]; rfl⟩
  · rw [if_neg hlen]
    cases subpath with
    | nil => exact ⟨by simp, rfl⟩
    | cons x rest =>
      dsimp only
      by_cases hx : x = current
      · rw [if_pos hx]
        exact ⟨by simp, rfl⟩
      · rw [if_neg hx]
        exact ⟨by simp, by rw [List.cons_append]; rfl⟩

/-- Loop invariant for C9: a nonempty accumulated path keeps its head, and a
finite accumulated total stays finite. -/
theorem optLoop_head_total (m : CampusMap) (od : List (String × Order)) :
    ∀ (fuel : ℕ) (rem picked : List String) (current : String) (path : List String)
      (total : WithTop ℤ), path ≠ [] → total ≠ ⊤ →
      (optLoop m od fuel rem picked current path total).1.head? = path.head? ∧
      (optLoop m od fuel rem picked current path total).1 ≠ [] ∧
      (optLoop m od fuel rem picked current path total).2.1 ≠ ⊤ := by
  intro fuel
  induction fuel with
  | zero =>
    intro rem picked current path total hne htop
    rw [optLoop_fuel_zero]
    exact ⟨rfl, hne, htop⟩
  | succ fuel ih =>
    intro rem picked current path total hne htop
    cases rem with
    | nil =>
      rw [optLoop_rem_nil]
      exact ⟨rfl, hne, htop⟩
    | cons oid0 rem' =>
      cases hch : chooseLoop m od picked current (oid0 :: rem') none with
      | none =>
        rw [optLoop_guard _ _ _ _ _ _ _ _ _ hch]
        exact ⟨rfl, hne, htop⟩
      | some c =>
        have hcd : c.dist ≠ ⊤ :=
          chooseLoop_some_dist_ne_top m od picked current (oid0 :: rem') none
            (fun c hc => Option.noConfusion hc) c hch
        have hext := extendPath_ne_nil_head current path c.path hne
        have htot : total + c.dist ≠ ⊤ := WithTop.add_ne_top.mpr ⟨htop, hcd⟩
        cases hact : c.action with
        | pickup =>
          rw [optLoop_step_pickup _ _ _ _ _ _ _ _ _ _ hch hact]
          have hrec := ih (oid0 :: rem') (c.oid :: picked) c.target
            (extendPath current path c.path) (total + c.dist) hext.1 htot
          exact ⟨hrec.1.trans hext.2, hrec.2.1, hrec.2.2⟩
        | deliver =>
          rw [optLoop_step_deliver _ _ _ _ _ _ _ _ _ _ hch hact]
          have hrec := ih ((oid0 :: rem').erase c.oid) picked c.target
            (extendPath current path c.path) (total + c.dist) hext.1 htot
          exact ⟨hrec.1.trans hext.2, hrec.2.1, hrec.2.2⟩

/--
C9.  For every start location and every order list, the total distance
returned by `optimize_route` is finite (`≠ +inf`): a candidate of infinite
cost is never selected, so when every remaining action is unreachable the loop
stops with the partial path built so far; and the returned path always starts
at the start location.
-/
theorem claim9_finite_total_path_head (m : CampusMap) (start_location : String)
    (orders : List Order) :
    (optimize_route m start_location orders).2 ≠ ⊤ ∧
      (optimize_route m start_location orders).1.head? = some start_location := by
  unfold optimize_route optimizeRouteTraced
  by_cases horders : orders = []
  · rw [if_pos horders]
    constructor
    · exact WithTop.zero_ne_top
    · rfl
  · rw [if_neg horders]
    have h := optLoop_head_total m (orders.foldl (fun d o => alInsert o.order_id o d) [])
      (2 * ((orders.map (fun o => o.order_id)).dedup).length + 1)
      ((orders.map (fun o => o.order_id)).dedup) [] start_location [start_location] 0
      (by simp) WithTop.zero_ne_top
    exact ⟨h.2.2, h.1⟩

/-! #### C3: empty-input laws -/

/-- From a start with no outgoing adjacency, `find_shortest_path` can only
return `([start], 0)` (target is the known start itself) or `([], +inf)`. -/
theorem fsp_no_neighbors {m : CampusMap} {start : String}
    (hn : get_neighbors m start = []) (t : String) :
    (find_shortest_path m start t = ([start], 0) ∧ t = start) ∨
      find_shortest_path m start t = ([], ⊤) := by
  unfold find_shortest_path
  by_cases hv : alLookup start m.locations = none ∨ alLookup t m.locations = none
  · rw [if_pos hv]
    exact Or.inr rfl
  · rw [if_neg hv]
    by_cases hst : start = t
    · rw [if_pos hst]
      exact Or.inl ⟨rfl, hst.symm⟩
    · rw [if_neg hst]
      right
      have h2 : totalAdjSize m + 2 = (totalAdjSize m + 1) + 1 := rfl
      rw [h2, dijkstraLoop_cons, if_neg (by simp : ¬ start ∈ ([] : List String)),
        if_neg hst, hn]
      have hrelax : relaxAll (0, start) (start :: []) [] [(start, 0)] [(start, none)] [] =
          ([(start, 0)], [(start, none)], []) := rfl
      rw [hrelax]
      exact dijkstraLoop_pq_nil m t (totalAdjSize m) _ _ _

/-- With an isolated start, every candidate the scan can select targets the
start itself at cost 0 with sub-path `[start]`. -/
theorem chooseLoop_no_neighbors {m : CampusMap} {start : String}
    (hn : get_neighbors m start = []) (od : List (String × Order))
    (picked : List String) :
    ∀ (ids : List String) (best : Option Cand),
      (∀ c, best = some c → c.target = start ∧ c.dist = 0 ∧ c.path = [start]) →
      ∀ c', chooseLoop m od picked start ids best = some c' →
        c'.target = start ∧ c'.dist = 0 ∧ c'.path = [start] := by
  intro ids
  induction ids with
  | nil =>
    intro best hb c' h
    rw [chooseLoop_nil] at h
    exact hb c' h
  | cons oid rest ih =>
    intro best hb c' h
    cases hlk : alLookup oid od with
    | none =>
      rw [chooseLoop_cons_none _ _ _ _ _ _ _ hlk] at h
      exact ih best hb c' h
    | some o =>
      rw [chooseLoop_cons_some _ _ _ _ _ _ _ _ hlk] at h
      split at h <;> split at h <;>
        first
        | exact ih best hb c' h
        | (rename_i hlt
           refine ih _ ?_ c' h
           intro c hc
           injection hc with hc
           subst hc
           dsimp only
           first
           | (rcases fsp_no_neighbors hn o.delivery_location with ⟨heq, hts⟩ | heq
              · rw [heq]
                exact ⟨hts ▸ rfl, rfl, rfl⟩
              · rw [heq] at hlt
                exact absurd hlt not_top_lt)
           | (rcases fsp_no_neighbors hn o.pickup_location with ⟨heq, hts⟩ | heq
              · rw [heq]
                exact ⟨hts ▸ rfl, rfl, rfl⟩
              · rw [heq] at hlt
                exact absurd hlt not_top_lt))

/-- With an isolated start, the optimizer loop never moves or accumulates
distance: it ends (through the guard or by draining `remaining`) with
`([start], 0)`. -/
theorem optLoop_no_neighbors {m : CampusMap} {start : String}
    (hn : get_neighbors m start = []) (od : List (String × Order)) :
    ∀ (fuel : ℕ) (rem picked : List String),
      (optLoop m od fuel rem picked start [start] 0).1 = [start] ∧
      (optLoop m od fuel rem picked start [start] 0).2.1 = 0 := by
  intro fuel
  induction fuel with
  | zero =>
    intro rem picked
    rw [optLoop_fuel_zero]
    exact ⟨rfl, rfl⟩
  | succ fuel ih =>
    intro rem picked
    cases rem with
    | nil =>
      rw [optLoop_rem_nil]
      exact ⟨rfl, rfl⟩
    | cons oid0 rem' =>
      cases hch : chooseLoop m od picked start (oid0 :: rem') none with
      | none =>
        rw [optLoop_guard _ _ _ _ _ _ _ _ _ hch]
        exact ⟨rfl, rfl⟩
      | some c =>
        have hP := chooseLoop_no_neighbors hn od picked (oid0 :: rem') none
          (fun c hc => Option.noConfusion hc) c hch
        have hext : extendPath start [start] c.path = [start] := by
          rw [hP.2.2]
          unfold extendPath
          rw [if_neg (by simp : ¬ 1 < ([start] : List String).length)]
          dsimp only
          rw [if_pos rfl]
        have htot : (0 : WithTop ℤ) + c.dist = 0 := by
          rw [hP.2.1, add_zero]
        cases hact : c.action with
        | pickup =>
          rw [optLoop_step_pickup _ _ _ _ _ _ _ _ _ _ hch hact, hP.1, hext, htot]
          exact ih (oid0 :: rem') (c.oid :: picked)
        | deliver =>
          rw [optLoop_step_deliver _ _ _ _ _ _ _ _ _ _ hch hact, hP.1, hext, htot]
          exact ih ((oid0 :: rem').erase c.oid) picked

/-- A single known location `X` with no connections. -/
def campusX : CampusMap := add_location emptyCampus "X" "CX" (0, 0) "" true

/-- An order whose pickup and delivery both sit at the isolated start `X`. -/
def orderXX : Order :=
  { order_id := "ORD-0001", customer_name := "x", pickup_location := "X",
    delivery_location := "X", items := ["i"] }

/--
C3 counterexample.  The claim says that for every non-empty order list with a
start location lacking outgoing edges, `optimize_route` returns
`([start], 0)` *via the early-termination guard*.  With an order picked up and
delivered at the isolated start itself, the loop performs both zero-cost
actions and drains `remaining` normally: the guard (the `Bool` flag of the
traced loop) is never taken, although the returned value is `([start], 0)`.
-/
theorem claim3_counterexample :
    get_neighbors campusX "X" = [] ∧ ([orderXX] ≠ ([] : List Order)) ∧
      optimizeRouteTraced campusX "X" [orderXX] = (["X"], 0, false) := by
  refine ⟨by decide, by decide, by decide⟩

/--
C3 (amended).  `optimize_route(start, [])` returns `([start], 0)`; and for
every order list, if `start` has no outgoing edges, `optimize_route` returns
`([start], 0)` — through the early-termination guard whenever some required
stop is unreachable, but through normal loop completion when every selected
target coincides with `start`.
-/
theorem claim3_empty_input_laws (m : CampusMap) (start_location : String) :
    optimize_route m start_location [] = ([start_location], 0) ∧
    (get_neighbors m start_location = [] →
      ∀ orders : List Order, optimize_route m start_location orders =
        ([start_location], 0)) := by
  have hbase : optimize_route m start_location [] = ([start_location], 0) := by
    unfold optimize_route optimizeRouteTraced
    rw [if_pos rfl]
  refine ⟨hbase, ?_⟩
  intro hn orders
  by_cases ho : orders = []
  · rw [ho]
    exact hbase
  · unfold optimize_route optimizeRouteTraced
    rw [if_neg ho]
    have h := optLoop_no_neighbors hn (orders.foldl (fun d o => alInsert o.order_id o d) [])
      (2 * ((orders.map (fun o => o.order_id)).dedup).length + 1)
      ((orders.map (fun o => o.order_id)).dedup) []
    rw [h.1, h.2]

/-- Witness for C3 (amended): the empty order list on the triangle graph, and
a nonempty order list from the isolated `X`. -/
theorem claim3_empty_input_laws_witness :
    optimize_route campusS "A" [] = (["A"], 0) ∧
      optimize_route campusX "X" [orderXX] = (["X"], 0) :=
  ⟨(claim3_empty_input_laws campusS "A").1,
   (claim3_empty_input_laws campusX "X").2 (by decide) [orderXX]⟩

/-! #### C2: pickup/deliver precedence in the annotated log -/

theorem string_append_left_inj {p a b : String} (h : p ++ a = p ++ b) : a = b := by
  have hd := congrArg String.data h
  rw [String.data_append, String.data_append] at hd
  have := List.append_cancel_left hd
  cases a
  cases b
  exact congrArg String.mk this

theorem deliver_ne_pickup_str (a b : String) : ("DELIVER: " ++ a) ≠ ("PICKUP: " ++ b) := by
  intro h
  have hd := congrArg String.data h
  rw [String.data_append, String.data_append] at hd
  have hhead := congrArg List.head? hd
  simp at hhead

/-- Every action the pickup scan records is a `"PICKUP: "`-tagged id. -/
theorem stopPickups_shape (loc : String) :
    ∀ (os : List Order) (picked : List String) (act : String),
      act ∈ (stopPickups loc os picked).1 → ∃ x, act = "PICKUP: " ++ x := by
  intro os
  induction os with
  | nil =>
    intro picked act h
    exact absurd h (by simp [stopPickups])
  | cons o os ih =>
    intro picked act h
    unfold stopPickups at h
    split at h
    · rcases List.mem_cons.mp h with h | h
      · exact ⟨o.order_id, h⟩
      · exact ih _ act h
    · exact ih _ act h

/-- Every action the delivery scan records is a `"DELIVER: "`-tagged id. -/
theorem stopDeliveries_shape (loc : String) (picked : List String) :
    ∀ (os : List Order) (delivered : List String) (act : String),
      act ∈ (stopDeliveries loc picked os delivered).1 → ∃ x, act = "DELIVER: " ++ x := by
  intro os
  induction os with
  | nil =>
    intro delivered act h
    exact absurd h (by simp [stopDeliveries])
  | cons o os ih =>
    intro delivered act h
    unfold stopDeliveries at h
    split at h
    · rcases List.mem_cons.mp h with h | h
      · exact ⟨o.order_id, h⟩
      · exact ih _ act h
    · exact ih _ act h

/-- An id in the picked-up set after the pickup scan was either already picked
up or has a `PICKUP` action recorded at this stop. -/
theorem stopPickups_mem_snd (loc : String) :
    ∀ (os : List Order) (picked : List String) (oid : String),
      oid ∈ (stopPickups loc os picked).2 →
      oid ∈ picked ∨ ("PICKUP: " ++ oid) ∈ (stopPickups loc os picked).1 := by
  intro os
  induction os with
  | nil =>
    intro picked oid h
    exact Or.inl h
  | cons o os ih =>
    intro picked oid h
    unfold stopPickups at h ⊢
    split at h
    · rename_i hcond
      dsimp only at h ⊢
      rcases ih (o.order_id :: picked) oid h with hmem | hmem
      · rcases List.mem_cons.mp hmem with hmem | hmem
        · subst hmem
          rw [if_pos hcond]
          exact Or.inr (List.mem_cons_self _ _)
        · rw [if_pos hcond]
          exact Or.inl hmem
      · rw [if_pos hcond]
        exact Or.inr (List.mem_cons_of_mem _ hmem)
    · rename_i hcond
      rw [if_neg hcond]
      exact ih picked oid h

/-- A `DELIVER` action is recorded only for an id in the picked-up set. -/
theorem stopDeliveries_mem_picked (loc : String) (picked : List String) :
    ∀ (os : List Order) (delivered : List String) (oid : String),
      ("DELIVER: " ++ oid) ∈ (stopDeliveries loc picked os delivered).1 →
      oid ∈ picked := by
  intro os
  induction os with
  | nil =>
    intro delivered oid h
    exact absurd h (by simp [stopDeliveries])
  | cons o os ih =>
    intro delivered oid h
    unfold stopDeliveries at h
    split at h
    · rename_i hcond
      rcases List.mem_cons.mp h with h | h
      · have := string_append_left_inj h
        rw [this]
        exact hcond.2.1
      · exact ih _ oid h
    · exact ih _ oid h

theorem actionIdx_nil (act : String) : actionIdx act [] = none := rfl

theorem actionIdx_cons (act : String) (st : String × List String)
    (rest : List (String × List String)) :
    actionIdx act (st :: rest) =
      if act ∈ st.2 then some 0 else (actionIdx act rest).map (· + 1) := rfl

theorem routeTraceLoop_cons (orders : List Order) (loc : String) (rest : List String)
    (picked delivered : List String) :
    routeTraceLoop orders (loc :: rest) picked delivered =
      (loc, (stopPickups loc orders picked).1 ++
          (stopDeliveries loc (stopPickups loc orders picked).2 orders delivered).1) ::
        routeTraceLoop orders rest (stopPickups loc orders picked).2
          (stopDeliveries loc (stopPickups loc orders picked).2 orders delivered).2 := rfl

/-- Replay precedence: a `DELIVER` entry for an id at stop `j` means the id was
already picked up on entry, or a `PICKUP` entry for it exists at a stop
`i ≤ j`. -/
theorem trace_deliver_has_pickup (orders : List Order) (oid : String) :
    ∀ (route picked delivered : List String) (j : ℕ),
      actionIdx ("DELIVER: " ++ oid) (routeTraceLoop orders route picked delivered) =
        some j →
      oid ∈ picked ∨
        ∃ i, actionIdx ("PICKUP: " ++ oid)
            (routeTraceLoop orders route picked delivered) = some i ∧ i ≤ j := by
  intro route
  induction route with
  | nil =>
    intro picked delivered j h
    exact absurd h (by simp [routeTraceLoop, actionIdx])
  | cons loc rest ih =>
    intro picked delivered j h
    rw [routeTraceLoop_cons] at h ⊢
    rw [actionIdx_cons] at h
    by_cases hdel : ("DELIVER: " ++ oid) ∈
        (stopPickups loc orders picked).1 ++
          (stopDeliveries loc (stopPickups loc orders picked).2 orders delivered).1
    · rw [if_pos hdel] at h
      injection h with h
      subst h
      rcases List.mem_append.mp hdel with hmem | hmem
      · obtain ⟨x, hx⟩ := stopPickups_shape loc orders picked _ hmem
        exact absurd hx (deliver_ne_pickup_str oid x)
      · have hpicked := stopDeliveries_mem_picked loc _ orders delivered oid hmem
        rcases stopPickups_mem_snd loc orders picked oid hpicked with hmem' | hmem'
        · exact Or.inl hmem'
        · refine Or.inr ⟨0, ?_, le_refl 0⟩
          rw [actionIdx_cons, if_pos (List.mem_append_left _ hmem')]
    · rw [if_neg hdel] at h
      cases hidx : actionIdx ("DELIVER: " ++ oid)
          (routeTraceLoop orders rest (stopPickups loc orders picked).2
            (stopDeliveries loc (stopPickups loc orders picked).2 orders delivered).2) with
      | none =>
        rw [hidx] at h
        exact absurd h (by simp)
      | some j' =>
        rw [hidx] at h
        have h : j' + 1 = j := by simpa using h
        rcases ih (stopPickups loc orders picked).2
            (stopDeliveries loc (stopPickups loc orders picked).2 orders delivered).2 j'
            hidx with hmem | ⟨i', hi', hle⟩
        · rcases stopPickups_mem_snd loc orders picked oid hmem with hmem' | hmem'
          · exact Or.inl hmem'
          · refine Or.inr ⟨0, ?_, by omega⟩
            rw [actionIdx_cons, if_pos (List.mem_append_left _ hmem')]
        · by_cases hpk : ("PICKUP: " ++ oid) ∈
              (stopPickups loc orders picked).1 ++
                (stopDeliveries loc (stopPickups loc orders picked).2 orders delivered).1
          · refine Or.inr ⟨0, ?_, by omega⟩
            rw [actionIdx_cons, if_pos hpk]
          · refine Or.inr ⟨i' + 1, ?_, by omega⟩
            rw [actionIdx_cons, if_neg hpk, hi']
            rfl

/-- The triangle-graph order of the spec's concrete scenario 2: pickup at `B`,
delivery at `C`. -/
def orderBC : Order :=
  { order_id := "ORD-0001", customer_name := "s", pickup_location := "B",
    delivery_location := "C", items := ["i"] }

/-- The strict-precedence property in exactly the claim's terms (formalized
from the claim's wording, in order to exhibit its failure): every order with a
`DELIVER` entry also has a `PICKUP` entry, at a strictly smaller stop index. -/
def specStrictPrecedence (route : List String) (orders : List Order) : Bool :=
  orders.all fun o =>
    match actionIdx ("DELIVER: " ++ o.order_id) (buildRouteTrace route orders),
        actionIdx ("PICKUP: " ++ o.order_id) (buildRouteTrace route orders) with
    | some j, some i => decide (i < j)
    | some _, none => false
    | none, _ => true

/--
C2 counterexample.  For an order whose pickup and delivery locations coincide
(both at the start `X`), the optimizer's route is `["X"]` and the annotator
records both `PICKUP` and `DELIVER` at stop index 0 — the `PICKUP` index is
not strictly less than the `DELIVER` index, refuting the claim as stated.
-/
theorem claim2_counterexample :
    (optimize_route campusX "X" [orderXX]).1 = ["X"] ∧
      buildRouteTrace ["X"] [orderXX] =
        [("X", ["PICKUP: ORD-0001", "DELIVER: ORD-0001"])] ∧
      specStrictPrecedence (optimize_route campusX "X" [orderXX]).1 [orderXX] = false := by
  refine ⟨by decide, by decide, by decide⟩

/--
C2 (amended).  In the annotated replay of the route returned by
`optimize_route`, every order id with a `DELIVER` entry also has a `PICKUP`
entry, and the `PICKUP` stop index is less than or equal to the `DELIVER`
stop index (equality occurs when both actions fall on the same stop, as when
an order's pickup and delivery locations coincide).
-/
theorem claim2_pickup_before_deliver (m : CampusMap) (start_location : String)
    (orders : List Order) (oid : String) (j : ℕ)
    (h : actionIdx ("DELIVER: " ++ oid)
        (buildRouteTrace (optimize_route m start_location orders).1 orders) = some j) :
    ∃ i, actionIdx ("PICKUP: " ++ oid)
        (buildRouteTrace (optimize_route m start_location orders).1 orders) = some i ∧
      i ≤ j := by
  have hb : buildRouteTrace (optimize_route m start_location orders).1 orders =
      routeTraceLoop orders (optimize_route m start_location orders).1 [] [] := rfl
  rw [hb] at h ⊢
  rcases trace_deliver_has_pickup orders oid (optimize_route m start_location orders).1
      [] [] j h with h0 | h1
  · exact absurd h0 (by simp)
  · exact h1

/-- Witness for C2 (amended): the spec's scenario-2 route `A → B → C`, where
the order is picked up at stop 1 and delivered at stop 2. -/
theorem claim2_pickup_before_deliver_witness :
    actionIdx ("DELIVER: " ++ "ORD-0001")
        (buildRouteTrace (optimize_route campusS "A" [orderBC]).1 [orderBC]) = some 2 ∧
      ∃ i, actionIdx ("PICKUP: " ++ "ORD-0001")
          (buildRouteTrace (optimize_route campusS "A" [orderBC]).1 [orderBC]) = some i ∧
        i ≤ 2 :=
  ⟨by decide, claim2_pickup_before_deliver campusS "A" [orderBC] "ORD-0001" 2 (by decide)⟩

/-! #### C1: correctness of `find_shortest_path`

The proof follows the classical Dijkstra invariant argument: `previous`-pointer
chains witness an actual walk for every recorded tentative distance; visited
nodes carry optimal distances; every edge out of the visited region has been
relaxed; and the queue is sorted, so the popped key bounds every walk leaving
the visited region. -/

/-- A chain of `previous` pointers: `Chain m prev v p d` says that following
`previous` back from `v` traverses the walk `p` (root first), whose recorded
edges weigh `d` in total. -/
inductive Chain (m : CampusMap) (prev : List (String × Option String)) :
    String → List String → ℤ → Prop
  | base {v : String} : alLookup v prev = some none → Chain m prev v [v] 0
  | step {u v : String} {p : List String} {du w : ℤ} :
      Chain m prev u p du → alLookup v prev = some (some u) →
      get_distance m u v = some w → Chain m prev v (p ++ [v]) (du + w)

theorem Chain.ne_nil {m : CampusMap} {prev : List (String × Option String)}
    {v : String} {p : List String} {d : ℤ} (h : Chain m prev v p d) : p ≠ [] := by
  cases h with
  | base _ => simp
  | step _ _ _ => simp

theorem Chain.getLast {m : CampusMap} {prev : List (String × Option String)}
    {v : String} {p : List String} {d : ℤ} (h : Chain m prev v p d) :
    p.getLast? = some v := by
  cases h with
  | base _ => rfl
  | step hc _ _ => simp

theorem Chain.mem_prev {m : CampusMap} {prev : List (String × Option String)}
    {v : String} {p : List String} {d : ℤ} (h : Chain m prev v p d) :
    ∀ y ∈ p, (alLookup y prev).isSome = true := by
  induction h with
  | base hv =>
    intro y hy
    rw [List.mem_singleton] at hy
    subst hy
    simp [hv]
  | step hc hv he ih =>
    intro y hy
    rcases List.mem_append.mp hy with hy | hy
    · exact ih y hy
    · rw [List.mem_singleton] at hy
      subst hy
      simp [hv]

/-- Updating `prev` at a key outside the chain leaves the chain intact. -/
theorem Chain.insert_preserved {m : CampusMap} {prev : List (String × Option String)}
    {v : String} {p : List String} {d : ℤ} (h : Chain m prev v p d)
    {x : String} (hx : x ∉ p) (o2 : Option String) :
    Chain m (alInsert x o2 prev) v p d := by
  induction h with
  | base hv =>
    rename_i v'
    have hvx : v' ≠ x := by
      intro hh
      subst hh
      exact hx (List.mem_singleton_self _)
    refine Chain.base ?_
    rw [alLookup_insert_ne hvx, hv]
  | step hc hv he ih =>
    rename_i u v' p' du w
    have hxv : v' ≠ x := by
      intro hh
      subst hh
      exact hx (List.mem_append_right _ (List.mem_singleton_self _))
    refine Chain.step (ih (fun hmem => hx (List.mem_append_left _ hmem))) ?_ he
    rw [alLookup_insert_ne hxv, hv]

theorem head?_append_ne_nil {α : Type} (l l' : List α) (h : l ≠ []) :
    (l ++ l').head? = l.head? := by
  cases l with
  | nil => exact absurd rfl h
  | cons a t => rfl

theorem Chain.head_root {m : CampusMap} {prev : List (String × Option String)}
    {s v : String} {p : List String} {d : ℤ} (h : Chain m prev v p d)
    (hroot : ∀ y, alLookup y prev = some none → y = s) : p.head? = some s := by
  induction h with
  | base hv => rw [hroot _ hv]; rfl
  | step hc hv he ih =>
    rename_i u v' p' du w
    rw [head?_append_ne_nil _ _ hc.ne_nil]
    exact ih

/-- Appending one more node through a present edge adds its weight. -/
theorem pathWeight_append_edge (m : CampusMap) :
    ∀ (p : List String) (u v : String), p ≠ [] → p.getLast? = some u →
      pathWeight m (p ++ [v]) = pathWeight m p +
        (match get_distance m u v with
          | some w => (w : WithTop ℤ)
          | none => (⊤ : WithTop ℤ)) := by
  intro p
  induction p with
  | nil => intro u v h _; exact absurd rfl h
  | cons a rest ih =>
    intro u v _ hlast
    cases rest with
    | nil =>
      rw [List.getLast?_singleton] at hlast
      injection hlast with hlast
      subst hlast
      show pathWeight m [a, v] = pathWeight m [a] + _
      rw [show pathWeight m [a, v] =
        (match get_distance m a v with
          | some w => (w : WithTop ℤ)
          | none => (⊤ : WithTop ℤ)) + pathWeight m [v] from rfl]
      rw [show pathWeight m [v] = 0 from rfl, show pathWeight m [a] = 0 from rfl]
      rw [add_zero, zero_add]
    | cons b rest' =>
      have hlast' : (b :: rest').getLast? = some u := by
        rwa [List.getLast?_cons_cons] at hlast
      have h1 : pathWeight m ((a :: b :: rest') ++ [v]) =
          (match get_distance m a b with
            | some w => (w : WithTop ℤ)
            | none => (⊤ : WithTop ℤ)) + pathWeight m ((b :: rest') ++ [v]) := rfl
      have h2 : pathWeight m (a :: b :: rest') =
          (match get_distance m a b with
            | some w => (w : WithTop ℤ)
            | none => (⊤ : WithTop ℤ)) + pathWeight m (b :: rest') := rfl
      rw [h1, h2, ih u v (by simp) hlast', add_assoc]

/-- Weight of an edge present in a nonnegative-weight map. -/
theorem edge_weight_nonneg {m : CampusMap} (hw : NonnegWeights m) {a b : String} {w : ℤ}
    (h : get_distance m a b = some w) : 0 ≤ w := by
  unfold get_distance at h
  cases hga : alLookup a m.graph with
  | none => rw [hga] at h; exact Option.noConfusion h
  | some adj =>
    rw [hga] at h
    exact hw (a, adj) (alLookup_mem hga) (b, w) (alLookup_mem h)

theorem pathWeight_nonneg {m : CampusMap} (hw : NonnegWeights m) :
    ∀ q : List String, 0 ≤ pathWeight m q := by
  intro q
  induction q with
  | nil => exact le_refl 0
  | cons a rest ih =>
    cases rest with
    | nil => exact le_refl 0
    | cons b rest' =>
      rw [show pathWeight m (a :: b :: rest') =
        (match get_distance m a b with
          | some w => (w : WithTop ℤ)
          | none => (⊤ : WithTop ℤ)) + pathWeight m (b :: rest') from rfl]
      refine add_nonneg ?_ ih
      cases hgd : get_distance m a b with
      | none => exact le_top
      | some w =>
        show (0 : WithTop ℤ) ≤ (w : WithTop ℤ)
        exact_mod_cast edge_weight_nonneg hw hgd

/-- A `previous`-chain is a genuine walk from the root `s` to its endpoint,
with total weight exactly the recorded distance. -/
theorem Chain.isPath_weight {m : CampusMap} {prev : List (String × Option String)}
    {s v : String} {p : List String} {d : ℤ} (h : Chain m prev v p d)
    (hroot : ∀ y, alLookup y prev = some none → y = s) :
    IsPath m p s v ∧ pathWeight m p = (d : WithTop ℤ) := by
  induction h with
  | base hv =>
    have := hroot _ hv
    subst this
    exact ⟨by simp [IsPath, isPathB], rfl⟩
  | step hc hv he ih =>
    rename_i u v' p' du w
    obtain ⟨hip, hwt⟩ := ih
    constructor
    · exact isPath_append_edge hip (by rw [he]; rfl)
    · rw [pathWeight_append_edge m p' u v' hc.ne_nil hc.getLast, hwt, he]
      push_cast
      rfl

/-- The reconstruction loop returns exactly the reversed chain once the fuel
covers the chain length. -/
theorem Chain.reconstruct {m : CampusMap} {prev : List (String × Option String)}
    {v : String} {p : List String} {d : ℤ} (h : Chain m prev v p d) :
    ∀ f : ℕ, p.length ≤ f → reconstructRev prev f v = p.reverse := by
  induction h with
  | base hv =>
    intro f hf
    cases f with
    | zero => simp at hf
    | succ f =>
      unfold reconstructRev
      rw [hv]
      dsimp only
      rw [List.reverse_singleton]
  | step hc hv he ih =>
    rename_i u v' p' du w
    intro f hf
    cases f with
    | zero => simp at hf
    | succ f =>
      unfold reconstructRev
      rw [hv]
      dsimp only
      rw [ih f (by simpa using hf), List.reverse_append]
      rfl

theorem nodup_concat {α : Type} {p : List α} {x : α} (h : p.Nodup) (hx : x ∉ p) :
    (p ++ [x]).Nodup := by
  rw [List.nodup_append]
  refine ⟨h, List.nodup_singleton _, ?_⟩
  intro a ha hb
  rw [List.mem_singleton] at hb
  subst hb
  exact hx ha

/-- The part of the Dijkstra loop invariant that the relaxation step both
needs and preserves. -/
structure RelaxInv (m : CampusMap) (s : String) (visited : List String)
    (dist : List (String × ℤ)) (prev : List (String × Option String))
    (pq : List (ℤ × String)) : Prop where
  sorted : pq.Sorted pqLE
  dist_s : alLookup s dist = some 0
  prev_s : alLookup s prev = some none
  noneRoot : ∀ v, alLookup v prev = some none → v = s
  parentVis : ∀ v u', alLookup v prev = some (some u') → u' ∈ visited
  chain : ∀ v dv, alLookup v dist = some dv →
    ∃ p, Chain m prev v p dv ∧ (∀ y ∈ p, y ∈ visited ∨ y = v) ∧ p.Nodup
  qkey : ∀ e ∈ pq, ∃ dx, alLookup e.2 dist = some dx ∧ dx ≤ e.1
  qbest : ∀ x dx, alLookup x dist = some dx → x ∉ visited → (dx, x) ∈ pq

/-- One relaxation update (`distances[x] = d + w; previous[x] = u;
heappush(pq, (d + w, x))`) preserves the invariant bundle. -/
theorem relaxInv_update (m : CampusMap) (s u x : String) (d w : ℤ)
    (visited : List String) (hs : s ∈ visited) (hu : u ∈ visited) (hxv : x ∉ visited)
    (dist : List (String × ℤ)) (prev : List (String × Option String))
    (pq : List (ℤ × String)) (hinv : RelaxInv m s visited dist prev pq)
    (hud : alLookup u dist = some d) (hedge : get_distance m u x = some w)
    (hdec : ∀ dv, alLookup x dist = some dv → d + w ≤ dv) :
    RelaxInv m s visited (alInsert x (d + w) dist) (alInsert x (some u) prev)
      (pqInsert (d + w, x) pq) := by
  have hsx : s ≠ x := fun hh => hxv (hh ▸ hs)
  have hux : u ≠ x := fun hh => hxv (hh ▸ hu)
  refine ⟨?_, ?_, ?_, ?_, ?_, ?_, ?_, ?_⟩
  · exact pqInsert_sorted hinv.sorted
  · rw [alLookup_insert_ne hsx]
    exact hinv.dist_s
  · rw [alLookup_insert_ne hsx]
    exact hinv.prev_s
  · intro v hv
    rw [alLookup_insert] at hv
    by_cases hxveq : x = v
    · rw [if_pos hxveq] at hv
      injection hv with hv
      exact Option.noConfusion hv
    · rw [if_neg hxveq] at hv
      exact hinv.noneRoot v hv
  · intro v u' hv
    rw [alLookup_insert] at hv
    by_cases hxveq : x = v
    · rw [if_pos hxveq] at hv
      injection hv with hv
      injection hv with hv
      rw [← hv]
      exact hu
    · rw [if_neg hxveq] at hv
      exact hinv.parentVis v u' hv
  · intro v dv hv
    rw [alLookup_insert] at hv
    by_cases hxveq : x = v
    · rw [if_pos hxveq] at hv
      injection hv with hv
      subst hxveq
      obtain ⟨pu, hchu, hmemu, hndu⟩ := hinv.chain u d hud
      have hxpu : x ∉ pu := by
        intro hmem
        rcases hmemu x hmem with hvis | heq
        · exact hxv hvis
        · exact hux heq.symm
      refine ⟨pu ++ [x], ?_, ?_, nodup_concat hndu hxpu⟩
      · exact hv ▸ Chain.step (hchu.insert_preserved hxpu (some u))
          (alLookup_insert_self x (some u) prev) hedge
      · intro y hy
        rcases List.mem_append.mp hy with hy | hy
        · rcases hmemu y hy with hvis | heq
          · exact Or.inl hvis
          · exact Or.inl (heq ▸ hu)
        · rw [List.mem_singleton] at hy
          exact Or.inr hy
    · rw [if_neg hxveq] at hv
      obtain ⟨pv, hchv, hmemv, hndv⟩ := hinv.chain v dv hv
      have hxpv : x ∉ pv := by
        intro hmem
        rcases hmemv x hmem with hvis | heq
        · exact hxv hvis
        · exact hxveq heq
      exact ⟨pv, hchv.insert_preserved hxpv (some u), hmemv, hndv⟩
  · intro e he
    rcases mem_pqInsert.mp he with he | he
    · subst he
      refine ⟨d + w, ?_, le_refl _⟩
      exact alLookup_insert_self x (d + w) dist
    · obtain ⟨dx', hlk, hle⟩ := hinv.qkey e he
      by_cases hxe : x = e.2
      · have hd2 : d + w ≤ dx' := hdec dx' (hxe ▸ hlk)
        refine ⟨d + w, ?_, le_trans hd2 hle⟩
        rw [← hxe, alLookup_insert_self]
      · refine ⟨dx', ?_, hle⟩
        rw [alLookup_insert_ne (fun hh => hxe hh.symm)]
        exact hlk
  · intro y dy hy hyv
    rw [alLookup_insert] at hy
    by_cases hxy : x = y
    · rw [if_pos hxy] at hy
      injection hy with hy
      subst hxy
      rw [← hy]
      exact self_mem_pqInsert _ _
    · rw [if_neg hxy] at hy
      exact mem_pqInsert.mpr (Or.inr (hinv.qbest y dy hy hyv))

/-- With duplicate-free inner keys, adjacency membership gives the edge weight. -/
theorem mem_neighbors_get_distance {m : CampusMap} (hwf : WFMap m) {u x : String} {w : ℤ}
    (h : (x, w) ∈ get_neighbors m u) : get_distance m u x = some w := by
  unfold get_neighbors at h
  unfold get_distance
  cases hg : alLookup u m.graph with
  | none =>
    rw [hg] at h
    simp [Option.getD] at h
  | some adj =>
    rw [hg] at h
    exact alLookup_eq_of_mem_of_nodup (hwf.2 (u, adj) (alLookup_mem hg)) h

/-- A present edge appears in the adjacency list of its source. -/
theorem get_distance_mem_neighbors {m : CampusMap} {u x : String} {w : ℤ}
    (h : get_distance m u x = some w) : (x, w) ∈ get_neighbors m u := by
  unfold get_distance at h
  unfold get_neighbors
  cases hg : alLookup u m.graph with
  | none =>
    rw [hg] at h
    exact Option.noConfusion h
  | some adj =>
    rw [hg] at h
    exact alLookup_mem h

/-- A duplicate-free list of keys that all answer a lookup is no longer than
the association list itself. -/
theorem nodup_length_le_keys {α : Type} {p : List String} {l : List (String × α)}
    (hnd : p.Nodup) (hsub : ∀ y ∈ p, (alLookup y l).isSome = true) :
    p.length ≤ l.length := by
  have hsub' : p.toFinset ⊆ (l.map Prod.fst).toFinset := by
    intro y hy
    rw [List.mem_toFinset] at hy ⊢
    obtain ⟨v, hv⟩ := Option.isSome_iff_exists.mp (hsub y hy)
    exact List.mem_map_of_mem Prod.fst (alLookup_mem hv)
  calc p.length = p.toFinset.card := (List.toFinset_card_of_nodup hnd).symm
    _ ≤ (l.map Prod.fst).toFinset.card := Finset.card_le_card hsub'
    _ ≤ (l.map Prod.fst).length := (l.map Prod.fst).toFinset_card_le
    _ = l.length := List.length_map _ _

/-- The key of a freshly popped unvisited entry carries its exact recorded
tentative distance (the queue never underbids `distances`). -/
theorem pop_dist_exact {m : CampusMap} {s current : String} {d : ℤ}
    {visited : List String} {dist : List (String × ℤ)}
    {prev : List (String × Option String)} {pq' : List (ℤ × String)}
    (hinv : RelaxInv m s visited dist prev ((d, current) :: pq'))
    (hcv : current ∉ visited) : alLookup current dist = some d := by
  obtain ⟨dx, hlk, hle⟩ := hinv.qkey (d, current) (List.mem_cons_self _ _)
  have hmem := hinv.qbest current dx hlk hcv
  rcases List.mem_cons.mp hmem with hh | hh
  · injection hh with h1 _
    rw [← h1]
    exact hlk
  · have hpq := (List.sorted_cons.mp hinv.sorted).1 (dx, current) hh
    unfold pqLE at hpq
    dsimp only at hpq
    rcases hpq with hpq | ⟨hpq, _⟩
    · exact absurd hpq (not_lt.mpr hle)
    · rw [hpq]
      exact hlk

/-- Popping an unvisited node and marking it visited preserves the relaxation
invariant with respect to the rest of the queue. -/
theorem relaxInv_pop {m : CampusMap} {s current : String} {d : ℤ}
    {visited : List String} {dist : List (String × ℤ)}
    {prev : List (String × Option String)} {pq' : List (ℤ × String)}
    (hinv : RelaxInv m s visited dist prev ((d, current) :: pq')) :
    RelaxInv m s (current :: visited) dist prev pq' := by
  refine ⟨(List.sorted_cons.mp hinv.sorted).2, hinv.dist_s, hinv.prev_s, hinv.noneRoot,
    ?_, ?_, ?_, ?_⟩
  · intro v u' hv
    exact List.mem_cons_of_mem _ (hinv.parentVis v u' hv)
  · intro v dv hv
    obtain ⟨p, hch, hmem, hnd⟩ := hinv.chain v dv hv
    exact ⟨p, hch, fun y hy => (hmem y hy).imp (List.mem_cons_of_mem _) id, hnd⟩
  · intro e he
    exact hinv.qkey e (List.mem_cons_of_mem _ he)
  · intro x dx hx hxv
    have hx1 : x ∉ visited := fun hh => hxv (List.mem_cons_of_mem _ hh)
    rcases List.mem_cons.mp (hinv.qbest x dx hx hx1) with hh | hh
    · injection hh with _ h2
      exact absurd (by rw [h2]; exact List.mem_cons_self _ _) hxv
    · exact hh

/-- Full specification of the relaxation loop over a neighbor list: it
preserves the invariant bundle, leaves visited entries of `distances`
untouched, only ever lowers recorded distances, and leaves every processed
unvisited neighbor `x` with a recorded distance at most `d + w(current, x)`. -/
theorem relaxAll_spec (m : CampusMap) (s current : String) (d : ℤ)
    (visited' : List String) (hs : s ∈ visited') (hcur : current ∈ visited') :
    ∀ (ns : List (String × ℤ)) (dist : List (String × ℤ))
      (prev : List (String × Option String)) (pq : List (ℤ × String))
      (dist' : List (String × ℤ)) (prev' : List (String × Option String))
      (pq' : List (ℤ × String)),
      RelaxInv m s visited' dist prev pq →
      alLookup current dist = some d →
      (∀ x w, (x, w) ∈ ns → get_distance m current x = some w) →
      relaxAll (d, current) visited' ns dist prev pq = (dist', prev', pq') →
      RelaxInv m s visited' dist' prev' pq' ∧
        (∀ v ∈ visited', alLookup v dist' = alLookup v dist) ∧
        (∀ v dv, alLookup v dist = some dv →
          ∃ dv', alLookup v dist' = some dv' ∧ dv' ≤ dv) ∧
        (∀ x w, (x, w) ∈ ns → x ∈ visited' ∨
          ∃ dx, alLookup x dist' = some dx ∧ dx ≤ d + w) := by
  intro ns
  induction ns with
  | nil =>
    intro dist prev pq dist' prev' pq' hinv hcd hns heq
    rw [relaxAll_nil] at heq
    injection heq with h1 h23
    injection h23 with h2 h3
    subst h1
    subst h2
    subst h3
    refine ⟨hinv, fun v _ => rfl, fun v dv h => ⟨dv, h, le_refl dv⟩, ?_⟩
    intro x w hx
    exact absurd hx (List.not_mem_nil _)
  | cons hd ns ih =>
    obtain ⟨x, w⟩ := hd
    intro dist prev pq dist' prev' pq' hinv hcd hns heq
    rw [relaxAll_cons] at heq
    have hedge : get_distance m current x = some w := hns x w (List.mem_cons_self _ _)
    have hnstl : ∀ x' w', (x', w') ∈ ns → get_distance m current x' = some w' :=
      fun x' w' h => hns x' w' (List.mem_cons_of_mem _ h)
    by_cases hx : x ∈ visited'
    · rw [if_pos hx] at heq
      obtain ⟨c1, c2, c3, c4⟩ := ih dist prev pq dist' prev' pq' hinv hcd hnstl heq
      refine ⟨c1, c2, c3, ?_⟩
      intro x' w' hmem
      rcases List.mem_cons.mp hmem with hmem | hmem
      · injection hmem with h1 h2
        rw [h1]
        exact Or.inl hx
      · exact c4 x' w' hmem
    · rw [if_neg hx] at heq
      have hcx : current ≠ x := fun hh => hx (hh ▸ hcur)
      cases hlk : alLookup x dist with
      | none =>
        rw [hlk] at heq
        dsimp only at heq
        have hdec : ∀ dv, alLookup x dist = some dv → d + w ≤ dv := by
          intro dv hdv
          rw [hlk] at hdv
          exact Option.noConfusion hdv
        have hinv1 := relaxInv_update m s current x d w visited' hs hcur hx
          dist prev pq hinv hcd hedge hdec
        have hcd1 : alLookup current (alInsert x (d + w) dist) = some d := by
          rw [alLookup_insert_ne hcx]
          exact hcd
        obtain ⟨c1, c2, c3, c4⟩ := ih _ _ _ dist' prev' pq' hinv1 hcd1 hnstl heq
        refine ⟨c1, ?_, ?_, ?_⟩
        · intro v hv
          have hvxne : v ≠ x := fun hh => hx (hh ▸ hv)
          rw [c2 v hv, alLookup_insert_ne hvxne]
        · intro v dv hdv
          have hvx : v ≠ x := by
            intro hh
            rw [hh, hlk] at hdv
            exact Option.noConfusion hdv
          have h' : alLookup v (alInsert x (d + w) dist) = some dv := by
            rw [alLookup_insert_ne hvx]
            exact hdv
          exact c3 v dv h'
        · intro x' w' hmem
          rcases List.mem_cons.mp hmem with hmem | hmem
          · injection hmem with h1 h2
            rw [h1, h2]
            right
            obtain ⟨dv', hdv', hle'⟩ := c3 x (d + w) (alLookup_insert_self x (d + w) dist)
            exact ⟨dv', hdv', hle'⟩
          · exact c4 x' w' hmem
      | some dx =>
        rw [hlk] at heq
        dsimp only at heq
        by_cases hlt : d + w < dx
        · rw [if_pos hlt] at heq
          have hdec : ∀ dv, alLookup x dist = some dv → d + w ≤ dv := by
            intro dv hdv
            rw [hlk] at hdv
            injection hdv with hdv
            exact hdv ▸ le_of_lt hlt
          have hinv1 := relaxInv_update m s current x d w visited' hs hcur hx
            dist prev pq hinv hcd hedge hdec
          have hcd1 : alLookup current (alInsert x (d + w) dist) = some d := by
            rw [alLookup_insert_ne hcx]
            exact hcd
          obtain ⟨c1, c2, c3, c4⟩ := ih _ _ _ dist' prev' pq' hinv1 hcd1 hnstl heq
          refine ⟨c1, ?_, ?_, ?_⟩
          · intro v hv
            have hvxne : v ≠ x := fun hh => hx (hh ▸ hv)
            rw [c2 v hv, alLookup_insert_ne hvxne]
          · intro v dv hdv
            by_cases hvx : v = x
            · subst hvx
              rw [hlk] at hdv
              injection hdv with hdv
              obtain ⟨dv', hdv', hle'⟩ := c3 v (d + w) (alLookup_insert_self v (d + w) dist)
              refine ⟨dv', hdv', ?_⟩
              rw [← hdv]
              exact le_trans hle' (le_of_lt hlt)
            · have h' : alLookup v (alInsert x (d + w) dist) = some dv := by
                rw [alLookup_insert_ne hvx]
                exact hdv
              exact c3 v dv h'
          · intro x' w' hmem
            rcases List.mem_cons.mp hmem with hmem | hmem
            · injection hmem with h1 h2
              rw [h1, h2]
              right
              obtain ⟨dv', hdv', hle'⟩ := c3 x (d + w) (alLookup_insert_self x (d + w) dist)
              exact ⟨dv', hdv', hle'⟩
            · exact c4 x' w' hmem
        · rw [if_neg hlt] at heq
          obtain ⟨c1, c2, c3, c4⟩ := ih dist prev pq dist' prev' pq' hinv hcd hnstl heq
          refine ⟨c1, c2, c3, ?_⟩
          intro x' w' hmem
          rcases List.mem_cons.mp hmem with hmem | hmem
          · injection hmem with h1 h2
            rw [h1, h2]
            right
            obtain ⟨dv', hdv', hle'⟩ := c3 x dx hlk
            exact ⟨dv', hdv', le_trans hle' (not_lt.mp hlt)⟩
          · exact c4 x' w' hmem

/-- A walk starts at its declared start node. -/
theorem isPath_head {m : CampusMap} : ∀ {q : List String} {s e : String},
    IsPath m q s e → q.head? = some s := by
  intro q s e h
  cases q with
  | nil => exact absurd h (by simp [IsPath, isPathB])
  | cons a rest =>
    cases rest with
    | nil =>
      simp only [IsPath, isPathB, Bool.and_eq_true, beq_iff_eq] at h
      exact congrArg some h.1
    | cons b rest' =>
      simp only [IsPath, isPathB, Bool.and_eq_true, beq_iff_eq] at h
      exact congrArg some h.1.1

/-- A walk ends at its declared end node. -/
theorem isPath_getLast {m : CampusMap} : ∀ {q : List String} {s e : String},
    IsPath m q s e → q.getLast? = some e := by
  intro q
  induction q with
  | nil => intro s e h; exact absurd h (by simp [IsPath, isPathB])
  | cons a rest ih =>
    intro s e h
    cases rest with
    | nil =>
      simp only [IsPath, isPathB, Bool.and_eq_true, beq_iff_eq] at h
      rw [List.getLast?_singleton]
      exact congrArg some h.2
    | cons b rest' =>
      simp only [IsPath, isPathB, Bool.and_eq_true, beq_iff_eq] at h
      rw [List.getLast?_cons_cons]
      exact ih h.2

/-- Snoc view of a walk: it is a single node, or a shorter walk followed by one
closing edge. -/
theorem isPath_snoc_cases {m : CampusMap} :
    ∀ {q : List String} {s e : String}, IsPath m q s e →
      (q = [s] ∧ e = s) ∨
        ∃ q' y w, q = q' ++ [e] ∧ IsPath m q' s y ∧ get_distance m y e = some w := by
  intro q
  induction q with
  | nil => intro s e h; exact absurd h (by simp [IsPath, isPathB])
  | cons a rest ih =>
    intro s e h
    cases rest with
    | nil =>
      simp only [IsPath, isPathB, Bool.and_eq_true, beq_iff_eq] at h
      obtain ⟨h1, h2⟩ := h
      exact Or.inl ⟨by rw [h1], h2.symm.trans h1⟩
    | cons b rest' =>
      simp only [IsPath, isPathB, Bool.and_eq_true, beq_iff_eq,
        Option.isSome_iff_exists] at h
      obtain ⟨⟨h1, w0, hw0⟩, h3⟩ := h
      rcases ih (s := b) (e := e) h3 with ⟨hq1, he1⟩ | ⟨q', y, w, hqeq, hp', hwy⟩
      · right
        refine ⟨[a], a, w0, ?_, ?_, ?_⟩
        · rw [hq1, he1]
          rfl
        · simp [IsPath, isPathB, h1]
        · rw [he1]
          exact hw0
      · right
        refine ⟨a :: q', y, w, ?_, ?_, hwy⟩
        · rw [hqeq]
          rfl
        · have hhd : q'.head? = some b := isPath_head hp'
          cases q' with
          | nil => exact absurd hhd (by simp)
          | cons b0 q'' =>
            injection hhd with hhd
            subst hhd
            simp only [IsPath, isPathB, Bool.and_eq_true, beq_iff_eq]
            refine ⟨⟨h1, ?_⟩, hp'⟩
            rw [hw0]
            rfl

/-- The cut lemma: with a sorted queue whose head key is `d`, optimal recorded
distances on the visited region and every frontier edge relaxed, every walk
from the root to any unvisited node weighs at least `d`. -/
theorem cut_bound (m : CampusMap) (s : String) (hw : NonnegWeights m)
    (visited : List String) (dist : List (String × ℤ)) (d : ℤ) (current : String)
    (pq' : List (ℤ × String))
    (hsorted : ((d, current) :: pq').Sorted pqLE)
    (hqbest : ∀ x dx, alLookup x dist = some dx → x ∉ visited →
      (dx, x) ∈ (d, current) :: pq')
    (hvisMin : ∀ v ∈ visited, ∃ dv, alLookup v dist = some dv ∧
      ∀ q, IsPath m q s v → (dv : WithTop ℤ) ≤ pathWeight m q)
    (hfront : ∀ u ∈ visited, ∀ x w, get_distance m u x = some w →
      x ∈ visited ∨ ∃ dx du, alLookup x dist = some dx ∧ alLookup u dist = some du ∧
        dx ≤ du + w)
    (hs : s ∈ visited) :
    ∀ (n : ℕ) (q : List String) (z : String), q.length ≤ n → IsPath m q s z →
      z ∉ visited → (d : WithTop ℤ) ≤ pathWeight m q := by
  have hkey : ∀ z, z ∉ visited → ∀ dz, alLookup z dist = some dz → d ≤ dz := by
    intro z hz dz hdz
    have hmem := hqbest z dz hdz hz
    rcases List.mem_cons.mp hmem with hmem | hmem
    · injection hmem with h1 _
      exact le_of_eq h1.symm
    · have hle := (List.sorted_cons.mp hsorted).1 (dz, z) hmem
      unfold pqLE at hle
      dsimp only at hle
      rcases hle with hle | ⟨hle, _⟩
      · exact le_of_lt hle
      · exact le_of_eq hle
  intro n
  induction n with
  | zero =>
    intro q z hlen hq hz
    have hq0 : q = [] := List.eq_nil_of_length_eq_zero (Nat.le_zero.mp hlen)
    subst hq0
    exact absurd hq (by simp [IsPath, isPathB])
  | succ n ih =>
    intro q z hlen hq hz
    rcases isPath_snoc_cases hq with ⟨hq1, hz1⟩ | ⟨q', y, w, hqeq, hp', hyz⟩
    · exact absurd (by rw [hz1]; exact hs) hz
    · subst hqeq
      have hlast : q'.getLast? = some y := isPath_getLast hp'
      have hne : q' ≠ [] := by
        intro hh
        rw [hh] at hp'
        exact absurd hp' (by simp [IsPath, isPathB])
      have hpw : pathWeight m (q' ++ [z]) = pathWeight m q' +
          (match get_distance m y z with
            | some w => (w : WithTop ℤ)
            | none => (⊤ : WithTop ℤ)) :=
        pathWeight_append_edge m q' y z hne hlast
      rw [hyz] at hpw
      dsimp only at hpw
      by_cases hyv : y ∈ visited
      · obtain ⟨dy, hdy, hopt⟩ := hvisMin y hyv
        rcases hfront y hyv z w hyz with hzv | ⟨dz, dy', hdz, hdy', hle⟩
        · exact absurd hzv hz
        · rw [hdy] at hdy'
          injection hdy' with hdy'
          rw [← hdy'] at hle
          have h1 : (d : WithTop ℤ) ≤ (dz : WithTop ℤ) := by
            exact_mod_cast hkey z hz dz hdz
          have h2 : (dz : WithTop ℤ) ≤ (dy : WithTop ℤ) + (w : WithTop ℤ) := by
            exact_mod_cast hle
          have h3 : (dy : WithTop ℤ) + (w : WithTop ℤ) ≤
              pathWeight m q' + (w : WithTop ℤ) :=
            add_le_add_right (hopt q' hp') _
          rw [hpw]
          exact le_trans h1 (le_trans h2 h3)
      · have hlen' : q'.length ≤ n := by
          rw [List.length_append, List.length_singleton] at hlen
          exact Nat.succ_le_succ_iff.mp hlen
        have hih := ih q' y hlen' hp' hyv
        have hw0 : (0 : ℤ) ≤ w := edge_weight_nonneg hw hyz
        have hw1 : (0 : WithTop ℤ) ≤ (w : WithTop ℤ) := by exact_mod_cast hw0
        rw [hpw]
        exact le_trans hih (le_add_of_nonneg_right hw1)

/-- The full Dijkstra loop invariant: the relaxation bundle, optimality of the
recorded distance on every visited node, every frontier edge already relaxed,
and either the root is visited or the state is the exact initial state. -/
structure DInv (m : CampusMap) (s : String) (visited : List String)
    (dist : List (String × ℤ)) (prev : List (String × Option String))
    (pq : List (ℤ × String)) : Prop where
  inv : RelaxInv m s visited dist prev pq
  visMin : ∀ v ∈ visited, ∃ dv, alLookup v dist = some dv ∧
    ∀ q, IsPath m q s v → (dv : WithTop ℤ) ≤ pathWeight m q
  front : ∀ u ∈ visited, ∀ x w, get_distance m u x = some w →
    x ∈ visited ∨ ∃ dx du, alLookup x dist = some dx ∧ alLookup u dist = some du ∧
      dx ≤ du + w
  init0 : s ∈ visited ∨
    (dist = [(s, 0)] ∧ prev = [(s, none)] ∧ visited = [] ∧ pq = [(0, s)])

/-- The state `find_shortest_path` hands to the loop satisfies the invariant. -/
theorem dInv_init (m : CampusMap) (a : String) :
    DInv m a [] [(a, 0)] [(a, none)] [(0, a)] := by
  refine ⟨⟨?_, ?_, ?_, ?_, ?_, ?_, ?_, ?_⟩, ?_, ?_, Or.inr ⟨rfl, rfl, rfl, rfl⟩⟩
  · exact List.sorted_singleton _
  · rw [alLookup_cons, if_pos rfl]
  · rw [alLookup_cons, if_pos rfl]
  · intro v hv
    rw [alLookup_cons] at hv
    by_cases hav : a = v
    · exact hav.symm
    · rw [if_neg hav, alLookup_nil] at hv
      exact Option.noConfusion hv
  · intro v u' hv
    rw [alLookup_cons] at hv
    by_cases hav : a = v
    · rw [if_pos hav] at hv
      injection hv with hv
      exact Option.noConfusion hv
    · rw [if_neg hav, alLookup_nil] at hv
      exact Option.noConfusion hv
  · intro v dv hv
    rw [alLookup_cons] at hv
    by_cases hav : a = v
    · rw [if_pos hav] at hv
      injection hv with hv
      subst hav
      refine ⟨[a], ?_, ?_, List.nodup_singleton _⟩
      · rw [← hv]
        exact Chain.base (by rw [alLookup_cons, if_pos rfl])
      · intro y hy
        rw [List.mem_singleton] at hy
        exact Or.inr hy
    · rw [if_neg hav, alLookup_nil] at hv
      exact Option.noConfusion hv
  · intro e he
    rw [List.mem_singleton] at he
    subst he
    refine ⟨0, ?_, le_refl 0⟩
    show alLookup a [(a, 0)] = some 0
    rw [alLookup_cons, if_pos rfl]
  · intro x dx hx hxv
    rw [alLookup_cons] at hx
    by_cases hax : a = x
    · rw [if_pos hax] at hx
      injection hx with hx
      rw [← hx, ← hax]
      exact List.mem_singleton_self _
    · rw [if_neg hax, alLookup_nil] at hx
      exact Option.noConfusion hx
  · intro v hv
    exact absurd hv (List.not_mem_nil _)
  · intro u hu
    exact absurd hu (List.not_mem_nil _)

/-- Main loop correctness: from any state satisfying the invariant, a
non-empty result of the Dijkstra loop is a genuine walk from the root to the
target whose weight is the returned distance, and that distance is a lower
bound on the weight of every walk from the root to the target. -/
theorem dijkstraLoop_correct (m : CampusMap) (s endL : String)
    (hw : NonnegWeights m) (hwf : WFMap m) :
    ∀ (fuel : ℕ) (dist : List (String × ℤ)) (prev : List (String × Option String))
      (visited : List String) (pq : List (ℤ × String)),
      DInv m s visited dist prev pq →
      ∀ p dd, dijkstraLoop m endL fuel dist prev visited pq = (p, dd) → p ≠ [] →
        IsPath m p s endL ∧ pathWeight m p = dd ∧
          ∀ q, IsPath m q s endL → dd ≤ pathWeight m q := by
  intro fuel
  induction fuel with
  | zero =>
    intro dist prev visited pq hinv p dd heq hp
    rw [dijkstraLoop_fuel_zero] at heq
    injection heq with h1 _
    exact absurd h1.symm hp
  | succ fuel ih =>
    intro dist prev visited pq hinv p dd heq hp
    cases pq with
    | nil =>
      rw [dijkstraLoop_pq_nil] at heq
      injection heq with h1 _
      exact absurd h1.symm hp
    | cons hd pq' =>
      obtain ⟨d, current⟩ := hd
      rw [dijkstraLoop_cons] at heq
      by_cases hcv : current ∈ visited
      · rw [if_pos hcv] at heq
        refine ih dist prev visited pq'
          ⟨⟨(List.sorted_cons.mp hinv.inv.sorted).2, hinv.inv.dist_s, hinv.inv.prev_s,
            hinv.inv.noneRoot, hinv.inv.parentVis, hinv.inv.chain,
            fun e he => hinv.inv.qkey e (List.mem_cons_of_mem _ he), ?_⟩,
            hinv.visMin, hinv.front, ?_⟩ p dd heq hp
        · intro x dx hdx hxv
          rcases List.mem_cons.mp (hinv.inv.qbest x dx hdx hxv) with hh | hh
          · injection hh with _ h2
            rw [h2] at hxv
            exact absurd hcv hxv
          · exact hh
        · rcases hinv.init0 with hsv | ⟨_, _, hv0, _⟩
          · exact Or.inl hsv
          · rw [hv0] at hcv
            exact absurd hcv (List.not_mem_nil _)
      · rw [if_neg hcv] at heq
        have hcd : alLookup current dist = some d := pop_dist_exact hinv.inv hcv
        have hbound : ∀ q z, IsPath m q s z → z ∉ visited →
            (d : WithTop ℤ) ≤ pathWeight m q := by
          rcases hinv.init0 with hsv | ⟨hd0, hp0, hv0, hq0⟩
          · intro q z hq hz
            exact cut_bound m s hw visited dist d current pq' hinv.inv.sorted
              hinv.inv.qbest hinv.visMin hinv.front hsv q.length q z (le_refl _) hq hz
          · intro q z hq hz
            injection hq0 with h1 _
            injection h1 with hd1 _
            rw [hd1]
            exact_mod_cast pathWeight_nonneg hw q
        by_cases hce : current = endL
        · rw [if_pos hce] at heq
          injection heq with h1 h2
          obtain ⟨pe, hch, hmem, hnd⟩ := hinv.inv.chain current d hcd
          have hlen : pe.length ≤ prev.length + 1 :=
            le_trans (nodup_length_le_keys hnd hch.mem_prev) (Nat.le_succ _)
          have hrec : reconstructRev prev (prev.length + 1) endL = pe.reverse := by
            rw [← hce]
            exact hch.reconstruct _ hlen
          have hpp : p = pe := by
            rw [← h1, hrec, List.reverse_reverse]
          subst hpp
          obtain ⟨hip, hwt⟩ := hch.isPath_weight hinv.inv.noneRoot
          refine ⟨?_, ?_, ?_⟩
          · rw [← hce]
            exact hip
          · rw [← h2]
            exact hwt
          · intro q hq
            rw [← h2]
            refine hbound q endL hq ?_
            rw [← hce]
            exact hcv
        · rw [if_neg hce] at heq
          rcases hR : relaxAll (d, current) (current :: visited)
            (get_neighbors m current) dist prev pq' with ⟨dist1, prev1, pq1⟩
          rw [hR] at heq
          dsimp only at heq
          have hs' : s ∈ current :: visited := by
            rcases hinv.init0 with hsv | ⟨_, _, _, hq0⟩
            · exact List.mem_cons_of_mem _ hsv
            · injection hq0 with h1 _
              injection h1 with _ h2
              rw [h2]
              exact List.mem_cons_self _ _
          have hns : ∀ x w, (x, w) ∈ get_neighbors m current →
              get_distance m current x = some w :=
            fun x w h => mem_neighbors_get_distance hwf h
          obtain ⟨c1, c2, c3, c4⟩ := relaxAll_spec m s current d (current :: visited)
            hs' (List.mem_cons_self _ _) (get_neighbors m current) dist prev pq'
            dist1 prev1 pq1 (relaxInv_pop hinv.inv) hcd hns hR
          refine ih dist1 prev1 (current :: visited) pq1 ⟨c1, ?_, ?_, Or.inl hs'⟩
            p dd heq hp
          · intro v hv
            rcases List.mem_cons.mp hv with hv | hv
            · subst hv
              refine ⟨d, ?_, ?_⟩
              · rw [c2 v (List.mem_cons_self _ _)]
                exact hcd
              · intro q hq
                exact hbound q v hq hcv
            · obtain ⟨dv, hdv, hoptv⟩ := hinv.visMin v hv
              refine ⟨dv, ?_, hoptv⟩
              rw [c2 v (List.mem_cons_of_mem _ hv)]
              exact hdv
          · intro u hu x w hedge
            rcases List.mem_cons.mp hu with hu | hu
            · subst hu
              rcases c4 x w (get_distance_mem_neighbors hedge) with hxv | ⟨dx, hdx, hle⟩
              · exact Or.inl hxv
              · right
                refine ⟨dx, d, hdx, ?_, hle⟩
                rw [c2 u (List.mem_cons_self _ _)]
                exact hcd
            · rcases hinv.front u hu x w hedge with hxv | ⟨dx, du, hdx, hdu, hle⟩
              · exact Or.inl (List.mem_cons_of_mem _ hxv)
              · by_cases hxv2 : x ∈ current :: visited
                · exact Or.inl hxv2
                · right
                  obtain ⟨dx', hdx', hlex⟩ := c3 x dx hdx
                  refine ⟨dx', du, hdx', ?_, le_trans hlex hle⟩
                  rw [c2 u (List.mem_cons_of_mem _ hu)]
                  exact hdu

/--
C1 (confirmed).  On a graph with nonnegative edge weights and duplicate-free
adjacency dictionaries (the spec's data model), whenever
`find_shortest_path m a b` returns a non-empty path `p` with distance `dd`,
`p` is a genuine walk of the graph starting at `a` and ending at `b`, the sum
of the edge weights along its consecutive nodes equals `dd`, and `dd` is less
than or equal to the total weight of every walk from `a` to `b`.
-/
theorem claim1_pair_correctness (m : CampusMap) (a b : String)
    (hw : NonnegWeights m) (hwf : WFMap m) (p : List String) (dd : WithTop ℤ)
    (heq : find_shortest_path m a b = (p, dd)) (hne : p ≠ []) :
    IsPath m p a b ∧ p.head? = some a ∧ p.getLast? = some b ∧
      pathWeight m p = dd ∧ ∀ q, IsPath m q a b → dd ≤ pathWeight m q := by
  unfold find_shortest_path at heq
  by_cases h0 : alLookup a m.locations = none ∨ alLookup b m.locations = none
  · rw [if_pos h0] at heq
    injection heq with h1 _
    exact absurd h1.symm hne
  · rw [if_neg h0] at heq
    by_cases hab : a = b
    · rw [if_pos hab] at heq
      injection heq with h1 h2
      subst hab
      have hp1 : p = [a] := h1.symm
      subst hp1
      refine ⟨?_, rfl, ?_, ?_, ?_⟩
      · simp [IsPath, isPathB]
      · rw [List.getLast?_singleton]
      · exact h2 ▸ rfl
      · intro q hq
        rw [← h2]
        exact pathWeight_nonneg hw q
    · rw [if_neg hab] at heq
      have h := dijkstraLoop_correct m a b hw hwf (totalAdjSize m + 2)
        [(a, 0)] [(a, none)] [] [(0, a)] (dInv_init m a) p dd heq hne
      exact ⟨h.1, isPath_head h.1, isPath_getLast h.1, h.2.1, h.2.2⟩

/-- Witness for C1 on the spec's triangle scenario (`A–B = 10`, `B–C = 5`,
`A–C = 20`): the search returns `(["A","B","C"], 15)`, that path is a walk
from `A` to `C` of weight `15`, and `15` is at most the weight of the direct
walk `["A","C"]`. -/
theorem claim1_pair_correctness_witness :
    NonnegWeights campusS ∧ WFMap campusS ∧
      find_shortest_path campusS "A" "C" = (["A", "B", "C"], (15 : WithTop ℤ)) ∧
      IsPath campusS ["A", "B", "C"] "A" "C" ∧
      pathWeight campusS ["A", "B", "C"] = (15 : WithTop ℤ) ∧
      (15 : WithTop ℤ) ≤ pathWeight campusS ["A", "C"] := by
  have hw : NonnegWeights campusS := by unfold NonnegWeights; decide
  have hwf : WFMap campusS := by unfold WFMap; decide
  have heq : find_shortest_path campusS "A" "C" = (["A", "B", "C"], (15 : WithTop ℤ)) := by
    decide
  have h := claim1_pair_correctness campusS "A" "C" hw hwf
    ["A", "B", "C"] (15 : WithTop ℤ) heq (by decide)
  exact ⟨hw, hwf, heq, h.1, h.2.2.2.1, h.2.2.2.2 ["A", "C"] (by unfold IsPath; decide)⟩

end BBots
